import Mathlib

/-!
Verification of the gruno execution engine (Go) against its specification.

The Go code is shallowly embedded: `map[string]string` becomes an
association list (`StrMap`), fallible functions return `Except String`,
external collaborators (the goja JS VM, the HTTP transport, the file
system, hooks) become explicit function parameters, and the regexp
`\x7b\x7b([^\x7d]+)\x7d\x7d` used for variable expansion becomes a
character-list scanner with the same leftmost, single-pass semantics.
-/

namespace Gruno

/-- Go `map[string]string`, modelled as an association list without
duplicate handling at the type level; `insert` replaces in place. -/
abbrev StrMap := List (String × String)

/-- Lookup, modelling Go `m[k]` / `v, ok := m[k]`. -/
def StrMap.find : StrMap → String → Option String
  | [], _ => none
  | (k, v) :: rest, key => if k = key then some v else StrMap.find rest key

/-- Assignment `m[k] = v`: replace the binding in place or append. -/
def StrMap.insert (m : StrMap) (key val : String) : StrMap :=
  match m with
  | [] => [(key, val)]
  | (k, v) :: rest =>
    if k = key then (k, val) :: rest else (k, v) :: StrMap.insert rest key val

/-- Go `maps.Copy(dst, src)`: every binding of `src` written into `dst`. -/
def StrMap.copyFrom (dst src : StrMap) : StrMap :=
  src.foldl (fun acc kv => acc.insert kv.1 kv.2) dst

/-- Go `cloneStringMap` (iteration.go): copy into a fresh empty map. -/
def cloneStringMap (m : StrMap) : StrMap :=
  StrMap.copyFrom [] m

/-- Go `strings.CutPrefix(key, pre)` on character lists. -/
def stripPre : List Char → List Char → Option (List Char)
  | [], cs => some cs
  | _ :: _, [] => none
  | p :: ps, c :: cs => if c = p then stripPre ps cs else none

/-- Go `strings.TrimSpace`: drop leading and trailing whitespace. -/
def trimSpace (s : String) : String :=
  String.mk ((s.data.dropWhile Char.isWhitespace).reverse.dropWhile Char.isWhitespace).reverse

/-- The literal prefix `"process.env."` checked by `expander.get`. -/
def processEnvKey : String := "process.env."

/-- `strings.CutPrefix(key, "process.env.")` from `expander.get`. -/
def cutProcessEnv (key : String) : Option String :=
  match stripPre processEnvKey.data key.data with
  | some rest => some (String.mk rest)
  | none => none

/-- The variable expander (part_008): a mutable map of known names. -/
structure Expander where
  vars : StrMap
deriving Repr, DecidableEq

/-- `newExpander(vars)`: copies the supplied map into a fresh one. -/
def newExpander (vars : StrMap) : Expander :=
  ⟨StrMap.copyFrom [] vars⟩

/-- `expander.get` (part_008 lines 66-84).  The OS environment is passed
explicitly as `osEnv` since `os.LookupEnv` is ambient state in Go. -/
def Expander.get (osEnv : StrMap) (e : Expander) (key : String) : Option String :=
  match cutProcessEnv key with
  | some suffix => StrMap.find osEnv suffix
  | none =>
    match StrMap.find e.vars key with
    | some v => some v
    | none => StrMap.find osEnv key

/-- `expander.set` (part_008 lines 86-94): mutate the local map only. -/
def Expander.set (e : Expander) (key val : String) : Expander :=
  ⟨e.vars.insert key val⟩

/-- One candidate match of the regexp body after an opening `\x7b\x7b`:
`takeWhile (≠ brace)` is the greedy `[^\x7d]+`, and the match succeeds
only when the run is nonempty and followed by two closing braces.
Returns the inner text and the characters after the match. -/
def splitVarToken (cs : List Char) : Option (List Char × List Char) :=
  match cs.dropWhile (fun c => c ≠ '}') with
  | '}' :: '}' :: rest =>
    if (cs.takeWhile (fun c => c ≠ '}')).isEmpty then none
    else some (cs.takeWhile (fun c => c ≠ '}'), rest)
  | _ => none

/--
`parser.VarPattern.ReplaceAllStringFunc` on `\x7b\x7b([^\x7d]+)\x7d\x7d`
(part_008 `expander.expand`): a leftmost single-pass scan.  A known name
is replaced by `lookup` of the trimmed inner text — the replacement is
emitted verbatim and never rescanned — and an unknown name leaves the
whole match literally in place.  The `fuel` argument makes the recursion
structural; `expandChars` below supplies adequate fuel.
-/
def expandFuel (lookup : String → Option String) : Nat → List Char → List Char
  | 0, cs => cs
  | _ + 1, [] => []
  | _ + 1, [c] => [c]
  | n + 1, c₁ :: c₂ :: rest =>
    if c₁ = '{' ∧ c₂ = '{' then
      match splitVarToken rest with
      | some (inner, rest') =>
        match lookup (trimSpace (String.mk inner)) with
        | some v => v.data ++ expandFuel lookup n rest'
        | none => '{' :: '{' :: (inner ++ '}' :: '}' :: expandFuel lookup n rest')
      | none => c₁ :: expandFuel lookup n (c₂ :: rest)
    else
      c₁ :: expandFuel lookup n (c₂ :: rest)

/-- The single-pass scan with adequate fuel. -/
def expandChars (lookup : String → Option String) (cs : List Char) : List Char :=
  expandFuel lookup cs.length cs

/-- `expander.expand` (part_008 lines 96-104). -/
def Expander.expand (osEnv : StrMap) (e : Expander) (s : String) : String :=
  String.mk (expandChars (fun name => e.get osEnv name) s.data)

/-- `FindAllStringSubmatch` of the variable pattern: the trimmed inner
names of every match, in order (buildHTTPRequest lines 351-358). -/
def collectVarsFuel : Nat → List Char → List String
  | 0, _ => []
  | _ + 1, [] => []
  | _ + 1, [_] => []
  | n + 1, c₁ :: c₂ :: rest =>
    if c₁ = '{' ∧ c₂ = '{' then
      match splitVarToken rest with
      | some (inner, rest') => trimSpace (String.mk inner) :: collectVarsFuel n rest'
      | none => collectVarsFuel n (c₂ :: rest)
    else
      collectVarsFuel n (c₂ :: rest)

/-- The unresolved `\x7b\x7bvar\x7d\x7d` names remaining in a URL;
`parser.VarPattern.MatchString(url)` is `(unresolvedVarNames url) ≠ []`. -/
def unresolvedVarNames (s : String) : List String :=
  collectVarsFuel s.data.length s.data

/-- Is `pat` a prefix of `cs` (Go `strings.HasPrefix` on chars)? -/
def isPre : List Char → List Char → Bool
  | [], _ => true
  | _ :: _, [] => false
  | p :: ps, c :: cs => c = p && isPre ps cs

/-- Go `strings.ReplaceAll` for a nonempty pattern: leftmost
non-overlapping replacements, structural via fuel. -/
def replaceFuel (pat repl : List Char) : Nat → List Char → List Char
  | 0, cs => cs
  | _ + 1, [] => []
  | n + 1, c :: cs =>
    if isPre pat (c :: cs) then repl ++ replaceFuel pat repl n ((c :: cs).drop pat.length)
    else c :: replaceFuel pat repl n cs

/-- `strings.ReplaceAll(s, pat, repl)` with adequate fuel. -/
def replaceAll (s pat repl : String) : String :=
  String.mk (replaceFuel pat.data repl.data s.data.length s.data)

/-- ASCII lowering, modelling `strings.ToLower` on the header names and
attribute keys that occur here (all ASCII). -/
def lowerChar (c : Char) : Char :=
  if 'A' ≤ c ∧ c ≤ 'Z' then Char.ofNat (c.toNat + 32) else c

/-- `strings.ToLower` (ASCII fragment). -/
def lowerStr (s : String) : String :=
  String.mk (s.data.map lowerChar)

/-- ASCII raising, modelling `strings.ToUpper` on HTTP verbs. -/
def upperChar (c : Char) : Char :=
  if 'a' ≤ c ∧ c ≤ 'z' then Char.ofNat (c.toNat - 32) else c

/-- `strings.ToUpper` (ASCII fragment). -/
def toUpperStr (s : String) : String :=
  String.mk (s.data.map upperChar)

/-- Go `strings.Contains`. -/
def containsSub (s sub : String) : Bool :=
  s.data.tails.any (fun t => isPre sub.data t)

/-- Go `strings.Split(s, sep)` for a single-character separator. -/
def splitOnChar (sep : Char) : List Char → List (List Char)
  | [] => [[]]
  | c :: rest =>
    match splitOnChar sep rest with
    | [] => [[]]
    | g :: gs => if c = sep then [] :: g :: gs else (c :: g) :: gs

/-- Go `strings.Cut` / `strings.SplitN(s, sep, 2)` at the first `sep`. -/
def cutAtChar (sep : Char) (cs : List Char) : Option (List Char × List Char) :=
  match cs.dropWhile (fun c => c ≠ sep) with
  | _ :: rest => some (cs.takeWhile (fun c => c ≠ sep), rest)
  | [] => none

/-- Go `strings.TrimSuffix(s, ",")` on chars. -/
def trimSuffixComma (cs : List Char) : List Char :=
  match cs.reverse with
  | ',' :: r => r.reverse
  | _ => cs

/-- Go `strings.Trim(s, quote)`: strip leading and trailing `ch`. -/
def trimCharBoth (ch : Char) (cs : List Char) : List Char :=
  ((cs.dropWhile (fun c => c = ch)).reverse.dropWhile (fun c => c = ch)).reverse

/-- `path/filepath.Base` for slash-separated paths. -/
def filepathBase (path : String) : String :=
  if path = "" then "."
  else
    let cs := path.data.reverse.dropWhile (fun c => c = '/')
    if cs.isEmpty then "/"
    else String.mk ((cs.takeWhile (fun c => c ≠ '/')).reverse)

/-! ### Parsed-case data model (internal/parser types used by the runner) -/

/-- `meta.settings` of a parsed case. -/
structure MetaSettings where
  script : String := ""
deriving Repr, DecidableEq

/-- `parser.MetaBlock` (fields the runner reads).  `Repeat` is renamed
`repeatCount` because `repeat` is reserved in Lean.  `Seq` is a float64
used only for copying and sorting; `Int` suffices for the claims. -/
structure MetaBlock where
  name : String := ""
  seq : Int := 0
  tags : List String := []
  skip : Bool := false
  delayMS : Int := 0
  repeatCount : Int := 0
  timeoutMS : Int := 0
  settings : MetaSettings := {}
deriving Repr, DecidableEq

/-- `parser.BodyBlock`. -/
structure BodyBlock where
  present : Bool := false
  type : String := ""
  raw : String := ""
  fields : StrMap := []
deriving Repr, DecidableEq

/-- `parser.RequestBlock` (fields the runner reads). -/
structure RequestBlock where
  verb : String := ""
  url : String := ""
  headers : StrMap := []
  query : StrMap := []
  pathParams : StrMap := []
  body : BodyBlock := {}
  graphqlVars : StrMap := []
deriving Repr, DecidableEq

/-- `parser.ScriptsBlock`. -/
structure ScriptsBlock where
  preRequest : String := ""
  postResponse : String := ""
deriving Repr, DecidableEq

/-- `parser.ParsedFile` (`parsedFile` alias in the runner).  An assert
rule is `(left, op, right)`. -/
structure ParsedFile where
  filePath : String := ""
  meta : MetaBlock := {}
  request : RequestBlock := {}
  scripts : ScriptsBlock := {}
  testsRaw : String := ""
  assertRules : List (String × String × String) := []
  varsPre : StrMap := []
  varsPost : StrMap := []
deriving Repr, DecidableEq

/-- `runner.CaseResult` (types.go).  `Duration` is wall-clock time and is
omitted; `RequestHeaders`/`ResponseHeaders` are `Option` because the Go
maps may be nil. -/
structure CaseResult where
  name : String := ""
  filePath : String := ""
  requestURL : String := ""
  requestHeaders : Option StrMap := none
  responseHeaders : Option StrMap := none
  status : Nat := 0
  seq : Int := 0
  tags : List String := []
  passed : Bool := false
  skipped : Bool := false
  failures : List (String × String) := []
  console : List String := []
  errorText : String := ""
deriving Repr, DecidableEq

/-- `runner.RunOptions` (the fields the executor and scheduler read). -/
structure RunOptions where
  vars : StrMap := []
  tags : List String := []
  excludeTags : List String := []
  testsOnly : Bool := false
  bail : Bool := false
  parallel : Bool := false
deriving Repr

/-- `runner.HookInfo` (types.go). -/
structure HookInfo where
  name : String := ""
  filePath : String := ""
  seq : Int := 0
  tags : List String := []
  method : String := ""
  url : String := ""
deriving Repr, DecidableEq

/-- `passesTagFilter` (runner.go lines 456-474). -/
def passesTagFilter (tags includeTags excludeTags : List String) : Bool :=
  (includeTags.isEmpty || tags.any (fun t => includeTags.contains t)) &&
  tags.all (fun t => !excludeTags.contains t)

/-- `hookInfoFromParsed` (runner.go lines 521-544): the only place the
empty meta name falls back to the file path's base name. -/
def hookInfoFromParsed (parsed : ParsedFile) (req : Option (String × String)) : HookInfo :=
  let method₀ := toUpperStr parsed.request.verb
  let url₀ := parsed.request.url
  let name := if parsed.meta.name = "" then filepathBase parsed.filePath else parsed.meta.name
  let method := match req with
    | some r => if r.1 ≠ "" then r.1 else method₀
    | none => method₀
  let url := match req with
    | some r => r.2
    | none => url₀
  { name := name
    filePath := parsed.filePath
    seq := parsed.meta.seq
    tags := parsed.meta.tags
    method := method
    url := url }

/-! ### Request builder (part_011) -/

/-- `orderedFormFields` field: `(key, value)` pair parsed from one raw
body line. -/
structure FormField where
  key : String
  value : String
deriving Repr, DecidableEq

/-- One line of `orderedFormFields` (part_011 lines 527-545). -/
def parseFormLine (line : List Char) : Option FormField :=
  let t := (trimSpace (String.mk line)).data
  if t.isEmpty then none
  else if isPre "//".data t then none
  else if isPre "~".data t then none
  else
    match cutAtChar ':' t with
    | none => none
    | some (k, v) =>
      some ⟨trimSpace (String.mk k), String.mk (trimSuffixComma (trimSpace (String.mk v)).data)⟩

/-- `orderedFormFields(raw)`: the fields of a form body in the order
they appear in `body.raw`. -/
def orderedFormFields (raw : String) : List FormField :=
  (splitOnChar '\n' raw.data).filterMap parseFormLine

/-- One hexadecimal digit, uppercase, as used by Go's URL escaping. -/
def hexDigitU (n : Nat) : Char :=
  if n < 10 then Char.ofNat (48 + n) else Char.ofNat (55 + n)

/-- Percent-escape one byte. -/
def escapeByte (b : Nat) : List Char :=
  ['%', hexDigitU (b / 16), hexDigitU (b % 16)]

/-- `net/url.QueryEscape` on one character: alphanumerics and `-_.~`
stay, space becomes `+`, everything else is `%XX` per UTF-8 byte. -/
def queryEscapeChar (c : Char) : List Char :=
  if c.isAlphanum || c = '-' || c = '_' || c = '.' || c = '~' then [c]
  else if c = ' ' then ['+']
  else (String.utf8EncodeChar c).foldr (fun b acc => escapeByte b.toNat ++ acc) []

/-- `net/url.QueryEscape`. -/
def queryEscape (s : String) : String :=
  String.mk (s.data.foldr (fun c acc => queryEscapeChar c ++ acc) [])

/-- Go `strings.Join(parts, sep)`. -/
def joinSep (sep : String) : List String → String
  | [] => ""
  | [x] => x
  | x :: xs => x ++ sep ++ joinSep sep xs

/-- `encodeFormFields` (part_011 lines 547-558): escape each expanded
key and value and join `k=v` pairs with `&`, preserving field order. -/
def encodeFormFields (fields : List FormField) (osEnv : StrMap) (exp : Expander) : String :=
  if fields.isEmpty then ""
  else
    joinSep "&"
      (fields.map (fun f =>
        queryEscape (exp.expand osEnv f.key) ++ "=" ++ queryEscape (exp.expand osEnv f.value)))

/-- Observer for the form-urlencoded wire body: split on `&`, then cut
each segment at the first `=`.  Not part of the source; used only to
state that the on-the-wire field order is exactly the input order. -/
def decodeFormBody (s : String) : List (String × String) :=
  (splitOnChar '&' s.data).map (fun seg =>
    match cutAtChar '=' seg with
    | some (k, v) => (String.mk k, String.mk v)
    | none => (String.mk seg, ""))

/-- Lexicographic order on strings via chars (for `url.Values.Encode`,
which sorts keys). -/
def charListLe : List Char → List Char → Bool
  | [], _ => true
  | _ :: _, [] => false
  | a :: as, b :: bs => if a < b then true else if b < a then false else charListLe as bs

/-- Insertion sort by `charListLe` (deterministic stand-in for Go's
`sort.Strings` inside `url.Values.Encode`). -/
def insertSortedStr (k : String) : List String → List String
  | [] => [k]
  | x :: xs => if charListLe k.data x.data then k :: x :: xs else x :: insertSortedStr k xs

/-- `urlValuesFromMap(fields, exp).Encode()` (part_011 lines 514-520):
`Set` each expanded value, then encode with keys sorted. -/
def valuesEncode (fields : StrMap) (osEnv : StrMap) (exp : Expander) : String :=
  let m : StrMap := fields.foldl (fun acc kv => acc.insert kv.1 (exp.expand osEnv kv.2)) []
  let keys := (m.map (fun kv => kv.1)).foldr insertSortedStr []
  joinSep "&"
    (keys.map (fun k => queryEscape k ++ "=" ++ queryEscape ((m.find k).getD "")))

/-- `multipartPart` (part_011 lines 560-565). -/
structure MultipartPart where
  isFile : Bool := false
  value : String := ""
  contentType : String := ""
  contentID : String := ""
deriving Repr, DecidableEq

/-- One attribute segment of `parseMultipartValue`. -/
def applyMultipartAttr (p : MultipartPart) (seg : List Char) : MultipartPart :=
  let seg := (trimSpace (String.mk seg)).data
  if seg.isEmpty then p
  else
    match cutAtChar '=' seg with
    | none => p
    | some (k, v) =>
      let key := lowerStr (trimSpace (String.mk k))
      if key = "type" ∨ key = "content-type" then
        { p with contentType := String.mk (trimCharBoth '"' v) }
      else if key = "cid" ∨ key = "content-id" then
        { p with contentID := trimSpace (String.mk v) }
      else p

/-- `parseMultipartValue` (part_011 lines 571-599): `@` marks a file
part; `;`-separated `type=`/`cid=` attributes follow. -/
def parseMultipartValue (raw : String) : MultipartPart :=
  match splitOnChar ';' raw.data with
  | [] => { value := raw }
  | first :: restSegs =>
    let p : MultipartPart :=
      if isPre "@".data first then { isFile := true, value := String.mk (first.drop 1) }
      else { value := String.mk first }
    restSegs.foldl applyMultipartAttr p

/-- One part of the multipart body as written to the wire. -/
structure WirePart where
  name : String
  filename : Option String := none
  contentType : Option String := none
  contentID : Option String := none
  content : String := ""
deriving Repr, DecidableEq

/-- External collaborators of the request builder: the OS environment,
the goja-based pseudo-JSON coercion, the `\x7bquery, variables\x7d` JSON
marshalling, the file system, and the random multipart boundary. -/
structure BuildEnv where
  osEnv : StrMap := []
  normalizeJSON : String → String := fun s => s
  graphqlPayload : String → StrMap → String := fun q _ => q
  readFile : String → Except String String := fun p => .error p
  boundary : String := "gruno-boundary"

/-- The `multipart.Writer` loop of `buildHTTPRequest` (part_011 lines
420-466): one wire part per ordered field, in field order.  File parts
stream the file at the expanded path with the unexpanded path's base
name; attribute-carrying string parts use `CreatePart`; plain string
parts use `WriteField`. -/
def multipartParts (env : BuildEnv) (exp : Expander) : List FormField → Except String (List WirePart)
  | [] => .ok []
  | f :: rest =>
    let part := parseMultipartValue f.value
    if part.isFile then
      match env.readFile (exp.expand env.osEnv part.value) with
      | .error e => .error e
      | .ok content =>
        match multipartParts env exp rest with
        | .error e => .error e
        | .ok parts =>
          .ok ({
            name := f.key
            filename := some (filepathBase part.value)
            contentType := if part.contentType ≠ "" then some part.contentType else none
            contentID := if part.contentID ≠ "" then some part.contentID else none
            content := content } :: parts)
    else
      match multipartParts env exp rest with
      | .error e => .error e
      | .ok parts =>
        if part.contentType ≠ "" ∨ part.contentID ≠ "" then
          .ok ({
            name := f.key
            contentType := if part.contentType ≠ "" then some part.contentType else none
            contentID := if part.contentID ≠ "" then some part.contentID else none
            content := exp.expand env.osEnv part.value } :: parts)
        else
          .ok ({ name := f.key, content := exp.expand env.osEnv part.value } :: parts)

/-- The request body as handed to the transport. -/
inductive BodyWire where
  | noBody
  | raw (s : String)
  | form (encoded : String)
  | multipart (parts : List WirePart)
deriving Repr, DecidableEq

/-- The concrete HTTP request produced by `buildHTTPRequest`.  Header
canonicalisation by Go's `http.Header.Set` is not modelled; headers are
kept as written. -/
structure Request where
  method : String
  url : String
  headers : StrMap
  query : StrMap
  body : BodyWire
deriving Repr, DecidableEq

/-- The body-encoding switch of `buildHTTPRequest` (part_011 lines
366-492): returns the wire body and the (possibly extended) header map. -/
def encodeBody (env : BuildEnv) (p : ParsedFile) (exp : Expander) : Except String (BodyWire × StrMap) :=
  if !p.request.body.present then .ok (.noBody, p.request.headers)
  else
    let hs := p.request.headers
    let btype := if p.request.body.type = "" then "json" else p.request.body.type
    if btype = "json" ∨ btype = "graphql" then
      let expanded := trimSpace (exp.expand env.osEnv p.request.body.raw)
      let payload :=
        if btype = "graphql" then
          env.graphqlPayload expanded
            (p.request.graphqlVars.map (fun kv => (kv.1, exp.expand env.osEnv kv.2)))
        else env.normalizeJSON expanded
      .ok (.raw payload,
           if (hs.find "Content-Type").isSome then hs
           else hs.insert "Content-Type" "application/json")
    else if btype = "form-urlencoded" then
      let ordered := orderedFormFields p.request.body.raw
      let bodyStr :=
        if ordered.length > 0 then encodeFormFields ordered env.osEnv exp
        else valuesEncode p.request.body.fields env.osEnv exp
      .ok (.form bodyStr, hs.insert "Content-Type" "application/x-www-form-urlencoded")
    else if btype = "multipart-form" then
      let ordered₀ := orderedFormFields p.request.body.raw
      let ordered :=
        if ordered₀.isEmpty then p.request.body.fields.map (fun kv => (⟨kv.1, kv.2⟩ : FormField))
        else ordered₀
      match multipartParts env exp ordered with
      | .error e => .error e
      | .ok parts =>
        let hs' :=
          match hs.find "Content-Type" with
          | some ct =>
            if containsSub (lowerStr ct) "multipart/related" then
              if containsSub ct "boundary=" then hs
              else hs.insert "Content-Type" (ct ++ "; boundary=" ++ env.boundary)
            else hs.insert "Content-Type" ("multipart/form-data; boundary=" ++ env.boundary)
          | none => hs.insert "Content-Type" ("multipart/form-data; boundary=" ++ env.boundary)
        .ok (.multipart parts, hs')
    else if btype = "xml" then
      .ok (.raw (exp.expand env.osEnv p.request.body.raw),
           if (hs.find "Content-Type").isSome then hs
           else hs.insert "Content-Type" "application/xml")
    else if btype = "text" then
      .ok (.raw (exp.expand env.osEnv p.request.body.raw),
           if (hs.find "Content-Type").isSome then hs
           else hs.insert "Content-Type" "text/plain")
    else
      .ok (.raw (exp.expand env.osEnv p.request.body.raw), hs)

/-- The URL phase of `buildHTTPRequest` (part_011 lines 346-350):
expand `request.url`, then replace each `:key` path param with its
expanded value. -/
def builtURL (env : BuildEnv) (p : ParsedFile) (exp : Expander) : String :=
  p.request.pathParams.foldl
    (fun u kv => replaceAll u (String.mk (':' :: kv.1.data)) (exp.expand env.osEnv kv.2))
    (exp.expand env.osEnv p.request.url)

/-- `buildHTTPRequest` (part_011 lines 345-512): expand the URL, apply
path params, fail when any variable is unresolved, encode the body, then
apply the case headers and query parameters with expansion. -/
def buildHTTPRequest (env : BuildEnv) (p : ParsedFile) (exp : Expander) : Except String Request :=
  let url := builtURL env p exp
  let names := unresolvedVarNames url
  if names.isEmpty then
    match encodeBody env p exp with
    | .error e => .error e
    | .ok (bw, hs) =>
      .ok { method := p.request.verb, url := url,
            headers := hs.foldl (fun acc kv => acc.insert kv.1 (exp.expand env.osEnv kv.2)) [],
            query := p.request.query.foldl (fun acc kv => acc.insert kv.1 (exp.expand env.osEnv kv.2)) [],
            body := bw }
  else
    .error ("unresolved variable(s) in url: " ++ String.intercalate ", " names ++
      " (provide --env/--var)")

/-! ### Case executor (runner.go `executeParsed`, part_010 `executeTests`) -/

/-- The observable behaviour of one goja test run (part_010
`executeTests`): captured console lines, then the outcome of each
declarative assert (left name and optional failure message, already
wrapped by `withHTTPContext`) and of each registered `test(...)` in
order.  The JS evaluation itself is external and is taken as given. -/
structure TestsEval where
  console : List String := []
  assertResults : List (String × Option String) := []
  testResults : List (String × Option String) := []

/-- The accumulation loops of `executeTests` (part_010 lines 74-93): a
failure appends to `failures` and clears `passed`. -/
def applyFailures (rs : List (String × Option String)) (r : CaseResult) : CaseResult :=
  rs.foldl
    (fun acc t =>
      match t.2 with
      | none => acc
      | some msg => { acc with passed := false, failures := acc.failures ++ [(t.1, msg)] })
    r

/-- `executeTests` result construction (part_010 lines 74-94): start
passing with the captured console, then fold assert failures, then test
failures. -/
def executeTests (ev : TestsEval) : CaseResult :=
  applyFailures ev.testResults (applyFailures ev.assertResults { passed := true, console := ev.console })

/-- `headerMap` (runner.go lines 625-638): lowercase the header names. -/
def headerMapLower (m : StrMap) : StrMap :=
  m.map (fun kv => (lowerStr kv.1, kv.2))

/-- The outcome of one HTTP dispatch: a transport error, or a response
whose post-response/tests evaluation yielded `tests` (`Except.error` is
a body-read or script-parse error from `executeTests`). -/
inductive DispatchOutcome where
  | transportError (msg : String)
  | response (status : Nat) (respHeaders : StrMap) (tests : Except String TestsEval)

/-- The external collaborators of `executeParsed`, indexed by repeat
iteration: the Go pre-request hook (may replace the request or abort),
the JS pre-request script (may mutate request and expander, or throw),
the HTTP transport, and the Go/external post hooks (abort on error). -/
structure CaseEffects where
  preHook : Nat → Request → Except String Request := fun _ r => .ok r
  preScript : Nat → Request → Expander → Except String (Request × Expander) := fun _ r e => .ok (r, e)
  dispatch : Nat → Request → DispatchOutcome := fun _ _ => .transportError "no transport"
  postHook : Nat → CaseResult → Option String := fun _ _ => none

/-- The expander a case starts with (runner.go lines 315-325):
`newExpander` snapshots `opts.Vars` into a fresh map, then `varsPre` is
merged in. -/
def caseStartExpander (opts : RunOptions) (parsed : ParsedFile) : Expander :=
  ⟨StrMap.copyFrom (newExpander opts.vars).vars parsed.varsPre⟩

/-- The three immediate skip paths of `executeParsed` (runner.go lines
304-313): tag filter, `meta.skip`, tests-only without tests or asserts. -/
def skippedResult (parsed : ParsedFile) : CaseResult :=
  { filePath := parsed.filePath
    name := parsed.meta.name
    seq := parsed.meta.seq
    tags := parsed.meta.tags
    passed := true
    skipped := true }

/-- The repeat loop of `executeParsed` (runner.go lines 349-451).  Each
pass builds the request (aborting the run on error), runs pre hooks and
the pre-request script, records the lowercased request headers, then
dispatches: a transport error becomes a non-passed result returned with
no error; a response goes through `executeTests` (an error there sets
`passed=false` and `errorText`), `varsPost` is merged into the expander,
the identity fields are set, post hooks run (abort on error), and the
loop continues only while the result passes. -/
def repeatLoop (env : BuildEnv) (eff : CaseEffects) (parsed : ParsedFile) :
    Nat → Nat → Expander → CaseResult → Except String CaseResult
  | 0, _, _, result => .ok result
  | n + 1, i, exp, _ =>
    match buildHTTPRequest env parsed exp with
    | .error e => .error e
    | .ok req =>
      match eff.preHook i req with
      | .error e => .error e
      | .ok req₁ =>
        match eff.preScript i req₁ exp with
        | .error e => .error ("pre script: " ++ e)
        | .ok (req₂, exp₂) =>
          let reqHeaders := headerMapLower req₂.headers
          match eff.dispatch i req₂ with
          | .transportError msg =>
            .ok {
              filePath := parsed.filePath
              name := parsed.meta.name
              requestURL := req₂.url
              seq := parsed.meta.seq
              tags := parsed.meta.tags
              passed := false
              errorText := "http request failed: " ++ msg }
          | .response status respHeaders testsExc =>
            let r₀ : CaseResult :=
              match testsExc with
              | .ok ev => executeTests ev
              | .error e => { passed := false, errorText := e }
            let exp₃ : Expander := ⟨StrMap.copyFrom exp₂.vars parsed.varsPost⟩
            let r₁ : CaseResult :=
              { r₀ with
                status := status
                requestHeaders := some reqHeaders
                responseHeaders := some (headerMapLower respHeaders)
                filePath := parsed.filePath
                name := parsed.meta.name
                requestURL := req₂.url
                seq := parsed.meta.seq
                tags := parsed.meta.tags }
            match eff.postHook i r₁ with
            | some e => .error e
            | none => if r₁.passed then repeatLoop env eff parsed n (i + 1) exp₃ r₁ else .ok r₁

/-- `executeParsed` (runner.go lines 287-454).  Wall-clock concerns
(timeout derivation, delays, durations) are not modelled; the prelude
file load keeps its abort-on-error behaviour via `env.readFile`. -/
def executeParsed (env : BuildEnv) (eff : CaseEffects) (parsed : ParsedFile)
    (opts : RunOptions) : Except String CaseResult :=
  if !passesTagFilter parsed.meta.tags opts.tags opts.excludeTags then .ok (skippedResult parsed)
  else if parsed.meta.skip then .ok (skippedResult parsed)
  else if opts.testsOnly && parsed.testsRaw = "" && parsed.assertRules.isEmpty then
    .ok (skippedResult parsed)
  else
    match (if parsed.meta.settings.script = "" then Except.ok ""
           else
             match env.readFile parsed.meta.settings.script with
             | .ok b => Except.ok b
             | .error e =>
               Except.error ("load prelude " ++ parsed.meta.settings.script ++ ": " ++ e) :
          Except String String) with
    | .error e => .error e
    | .ok _ =>
      repeatLoop env eff parsed
        (if parsed.meta.repeatCount ≤ 0 then 1 else parsed.meta.repeatCount.toNat) 0
        (caseStartExpander opts parsed) {}

/-! ### Scheduler (runner.go `RunFolder`) -/

/-- The mutable part of `RunSummary` during a run. -/
structure SummaryM where
  cases : List CaseResult := []
  total : Nat := 0
  passed : Nat := 0
  failed : Nat := 0
  skipped : Nat := 0
deriving Repr, DecidableEq

/-- Appending one case result and bumping the matching counter
(runner.go lines 165-174 and 209-216). -/
def accumulate (acc : SummaryM) (res : CaseResult) : SummaryM :=
  if res.skipped then { acc with cases := acc.cases ++ [res], skipped := acc.skipped + 1 }
  else if res.passed then { acc with cases := acc.cases ++ [res], passed := acc.passed + 1 }
  else { acc with cases := acc.cases ++ [res], failed := acc.failed + 1 }

/-- The sequential per-iteration loop (runner.go lines 190-222): each
case result is accumulated in order; an executor error aborts the run;
bail stops after the first non-skipped failure.  The boolean reports
whether bail fired.  `results` lists the executor outcomes for the
runnable cases of this iteration, in sorted order. -/
def seqIteration (bail : Bool) : List (Except String CaseResult) → SummaryM → Except String (SummaryM × Bool)
  | [], acc => .ok (acc, false)
  | r :: rest, acc =>
    match r with
    | .error e => .error e
    | .ok res =>
      let acc' := accumulate acc res
      if bail && !res.passed && !res.skipped then .ok (acc', true)
      else seqIteration bail rest acc'

/-- The parallel receive loop (runner.go lines 156-175): results arrive
on the channel in completion order (`arrivals`); the first error cancels
the iteration and later arrivals are dropped; otherwise each arrival is
accumulated in arrival order and a failure latches `bailTriggered` when
bail is set. -/
def parReceive (bail : Bool) :
    List (Except String CaseResult) → SummaryM → Bool → Option String → SummaryM × Bool × Option String
  | [], acc, bt, ie => (acc, bt, ie)
  | r :: rest, acc, bt, ie =>
    match ie with
    | some e => parReceive bail rest acc bt (some e)
    | none =>
      match r with
      | .error e => parReceive bail rest acc bt (some e)
      | .ok res =>
        parReceive bail rest (accumulate acc res) (bt || (bail && !res.passed && !res.skipped)) none

/-- One parallel iteration (runner.go lines 136-186): receive all
arrivals, then surface the recorded error, or the accumulated summary
and the bail flag. -/
def parIteration (bail : Bool) (arrivals : List (Except String CaseResult)) (acc : SummaryM) :
    Except String (SummaryM × Bool) :=
  match parReceive bail arrivals acc false none with
  | (_, _, some e) => .error e
  | (acc', bt, none) => .ok (acc', bt)

/-- The iteration loop of `RunFolder` (runner.go lines 130-223): run
each iteration sequentially or in parallel and stop early when bail
fires (returning the partial summary without error). -/
def runIters (parallel bail : Bool) (seqResults arrivals : Nat → List (Except String CaseResult)) :
    Nat → Nat → SummaryM → Except String SummaryM
  | 0, _, acc => .ok acc
  | n + 1, it, acc =>
    match (if parallel then parIteration bail (arrivals it) acc
           else seqIteration bail (seqResults it) acc) with
    | .error e => .error e
    | .ok (acc', bailed) =>
      if bailed then .ok acc'
      else runIters parallel bail seqResults arrivals n (it + 1) acc'

/-- `RunFolder` aggregation (runner.go lines 126-226): `Total` is fixed
up front as runnable × iterations; `seqResults it` lists the sequential
executor outcomes of iteration `it` in sorted case order; `arrivals it`
lists the same outcomes in channel-arrival (completion) order. -/
def runFolderModel (numRunnable numIters : Nat) (parallel bail : Bool)
    (seqResults arrivals : Nat → List (Except String CaseResult)) : Except String SummaryM :=
  runIters parallel bail seqResults arrivals numIters 0 { total := numRunnable * numIters }

/-! ### Variable flow across cases (runner.go lines 130-226, 315-428) -/

/-- The variable-relevant behaviour of one case: its `vars:pre-request`
block, the `bru.setVar(k, v)` calls its scripts perform (each calls
`expander.set`, part_010 lines 164-183), and its `vars:post-response`
block. -/
structure CaseSpec where
  varsPre : StrMap := []
  setVarCalls : List (String × String) := []
  varsPost : StrMap := []
deriving Repr, DecidableEq

/-- The expander a case observes while its scripts run: `executeParsed`
snapshots the supplied vars map (`newExpander` copies it), merges
`varsPre`, and then the script's `bru.setVar` calls mutate this
case-local copy (runner.go lines 315-325). -/
def caseExpander (iterVars : StrMap) (c : CaseSpec) : Expander :=
  let e₀ := newExpander iterVars
  let e₁ : Expander := ⟨StrMap.copyFrom e₀.vars c.varsPre⟩
  c.setVarCalls.foldl (fun e kv => e.set kv.1 kv.2) e₁

/-- What a case writes back into the caller's vars map after its
response: only the `vars:post-response` entries (runner.go lines
420-428); `bru.setVar` mutations stay in the case-local copy. -/
def afterCase (iterVars : StrMap) (c : CaseSpec) : StrMap :=
  c.varsPost.foldl (fun m kv => m.insert kv.1 kv.2) iterVars

/-- Sequential mode: every case of the iteration shares the one
`iterVars` map by reference (runner.go line 201), so each case's
expander is seeded from the map as updated by the previous cases'
write-backs. -/
def seqCaseExpanders (iterVars : StrMap) : List CaseSpec → List Expander
  | [] => []
  | c :: rest => caseExpander iterVars c :: seqCaseExpanders (afterCase iterVars c) rest

/-- Parallel mode: every case receives its own clone of the iteration
map (runner.go line 145), so no case's writes reach any other case. -/
def parCaseExpanders (iterVars : StrMap) (cases : List CaseSpec) : List Expander :=
  cases.map (fun c => caseExpander (cloneStringMap iterVars) c)

/-! ### Reporter header filtering (reporter.go) with an explicit heap

Go header maps are references; mutation is modelled through a store of
numbered cells so that the frame property (the input summary's maps are
untouched) is expressible. -/

/-- A heap of header maps: `mem` gives the contents of each cell,
`next` is the allocation counter; all live references are below `next`. -/
structure HeaderStore where
  mem : Nat → StrMap
  next : Nat

/-- Allocate a fresh map cell. -/
def HeaderStore.alloc (st : HeaderStore) (m : StrMap) : HeaderStore × Nat :=
  ({ mem := fun r => if r = st.next then m else st.mem r, next := st.next + 1 }, st.next)

/-- Overwrite an existing cell (Go in-place map mutation). -/
def HeaderStore.write (st : HeaderStore) (r : Nat) (m : StrMap) : HeaderStore :=
  { st with mem := fun r' => if r' = r then m else st.mem r' }

/-- The header references of one `CaseResult` (`nil` maps are `none`). -/
structure CaseHeaderRefs where
  reqHeaders : Option Nat := none
  respHeaders : Option Nat := none
deriving Repr, DecidableEq

/-- The map built by `filterHeaderMap` (reporter.go lines 43-55): keep
every entry whose lowercased name is not in the skip set. -/
def filterHeaderMapContents (hdrs : StrMap) (skipSet : List String) : StrMap :=
  hdrs.foldl
    (fun out kv => if skipSet.contains (lowerStr kv.1) then out else out.insert kv.1 kv.2) []

/-- `filterHeaderMap` allocates a fresh map (or passes `nil` through). -/
def filterHeaderMapRef (st : HeaderStore) (r : Option Nat) (skipSet : List String) :
    HeaderStore × Option Nat :=
  match r with
  | none => (st, none)
  | some r =>
    match st.alloc (filterHeaderMapContents (st.mem r) skipSet) with
    | (st', r') => (st', some r')

/-- The in-place masking of `maskSensitiveHeaders` (reporter.go lines
57-67). -/
def maskContents (m : StrMap) : StrMap :=
  let m₁ := if (m.find "authorization").isSome then m.insert "authorization" "********" else m
  if (m₁.find "proxy-authorization").isSome then m₁.insert "proxy-authorization" "********" else m₁

/-- `maskSensitiveHeaders` mutates the referenced map in place. -/
def maskSensitiveHeadersRef (st : HeaderStore) (r : Option Nat) : HeaderStore :=
  match r with
  | none => st
  | some r => st.write r (maskContents (st.mem r))

/-- The per-case loop of `filterReportHeaders` (reporter.go lines
28-38): drop both maps under skip-all, otherwise filter both into fresh
maps and mask those fresh maps. -/
def filterCasesRef (skipAll : Bool) (skipSet : List String) :
    HeaderStore → List CaseHeaderRefs → HeaderStore × List CaseHeaderRefs
  | st, [] => (st, [])
  | st, c :: cs =>
    if skipAll then
      match filterCasesRef skipAll skipSet st cs with
      | (st', out) => (st', { reqHeaders := none, respHeaders := none } :: out)
    else
      match filterHeaderMapRef st c.reqHeaders skipSet with
      | (st₁, r₁) =>
        match filterHeaderMapRef st₁ c.respHeaders skipSet with
        | (st₂, r₂) =>
          let st₃ := maskSensitiveHeadersRef st₂ r₁
          let st₄ := maskSensitiveHeadersRef st₃ r₂
          match filterCasesRef skipAll skipSet st₄ cs with
          | (st', out) => (st', { reqHeaders := r₁, respHeaders := r₂ } :: out)

/-- `filterReportHeaders` (reporter.go lines 18-41): normalise the skip
list, copy the cases slice, and rebuild every case's header maps. -/
def filterReportHeadersRef (st : HeaderStore) (cases : List CaseHeaderRefs)
    (skipAll : Bool) (skipList : List String) : HeaderStore × List CaseHeaderRefs :=
  filterCasesRef skipAll (skipList.map (fun h => lowerStr (trimSpace h))) st cases

end Gruno

namespace Gruno

/-! ## Theorems -/

theorem stringMk_data (s : String) : String.mk s.data = s := by
  cases s
  rfl

theorem stripPre_append (ps : List Char) : ∀ cs : List Char, stripPre ps (ps ++ cs) = some cs := by
  induction ps with
  | nil => intro cs; rfl
  | cons p ps ih => intro cs; simp [stripPre, ih]

theorem stripPre_some_iff (ps : List Char) :
    ∀ (cs r : List Char), stripPre ps cs = some r ↔ cs = ps ++ r := by
  induction ps with
  | nil =>
    intro cs r
    simp only [stripPre, Option.some.injEq, List.nil_append]
  | cons p ps ih =>
    intro cs r
    cases cs with
    | nil => simp [stripPre]
    | cons c cs =>
      simp only [stripPre, List.cons_append, List.cons.injEq]
      by_cases hc : c = p
      · rw [if_pos hc]
        rw [ih cs r]
        constructor
        · intro h
          exact ⟨hc, h⟩
        · intro h
          exact h.2
      · rw [if_neg hc]
        constructor
        · intro h
          exact absurd h (by simp)
        · intro h
          exact absurd h.1 hc

theorem splitVarToken_length {cs inner rest : List Char}
    (h : splitVarToken cs = some (inner, rest)) : rest.length + 2 ≤ cs.length := by
  unfold splitVarToken at h
  split at h
  case _ rest₀ heq =>
    split at h
    · exact absurd h (by simp)
    · simp only [Option.some.injEq, Prod.mk.injEq] at h
      obtain ⟨h₁, h₂⟩ := h
      subst h₂
      have hlen : (cs.dropWhile (fun c => decide (c ≠ '}'))).length ≤ cs.length :=
        (List.dropWhile_suffix _).length_le
      rw [heq] at hlen
      simp only [List.length_cons] at hlen
      omega
  case _ => exact absurd h (by simp)

theorem expandFuel_le {f : String → Option String} :
    ∀ (m : Nat) {n : Nat} {cs : List Char}, cs.length ≤ m → cs.length ≤ n →
      expandFuel f m cs = expandFuel f n cs := by
  intro m
  induction m with
  | zero =>
    intro n cs hm _
    have : cs = [] := List.length_eq_zero.mp (Nat.le_zero.mp hm)
    subst this
    cases n <;> rfl
  | succ m ih =>
    intro n cs hm hn
    cases n with
    | zero =>
      have : cs = [] := List.length_eq_zero.mp (Nat.le_zero.mp hn)
      subst this
      rfl
    | succ n =>
      cases cs with
      | nil => rfl
      | cons c₁ cs₁ =>
        cases cs₁ with
        | nil => rfl
        | cons c₂ rest =>
          simp only [List.length_cons] at hm hn
          simp only [expandFuel]
          by_cases hbr : c₁ = '{' ∧ c₂ = '{'
          · rw [if_pos hbr, if_pos hbr]
            cases hsp : splitVarToken rest with
            | none =>
              simp only [hsp]
              rw [@ih n (c₂ :: rest) (by simp; omega) (by simp; omega)]
            | some pr =>
              obtain ⟨inner, rest'⟩ := pr
              have hlen := splitVarToken_length hsp
              simp only [hsp]
              cases f (trimSpace (String.mk inner)) with
              | none =>
                simp only
                rw [@ih n rest' (by omega) (by omega)]
              | some v =>
                simp only
                rw [@ih n rest' (by omega) (by omega)]
          · rw [if_neg hbr, if_neg hbr]
            rw [@ih n (c₂ :: rest) (by simp; omega) (by simp; omega)]

theorem expandChars_cons₂ (f : String → Option String) (c₁ c₂ : Char) (rest : List Char) :
    expandChars f (c₁ :: c₂ :: rest) =
      if c₁ = '{' ∧ c₂ = '{' then
        match splitVarToken rest with
        | some (inner, rest') =>
          match f (trimSpace (String.mk inner)) with
          | some v => v.data ++ expandChars f rest'
          | none => '{' :: '{' :: (inner ++ '}' :: '}' :: expandChars f rest')
        | none => c₁ :: expandChars f (c₂ :: rest)
      else c₁ :: expandChars f (c₂ :: rest) := by
  show expandFuel f ((c₁ :: c₂ :: rest).length) (c₁ :: c₂ :: rest) = _
  simp only [List.length_cons, expandFuel]
  by_cases hbr : c₁ = '{' ∧ c₂ = '{'
  · rw [if_pos hbr, if_pos hbr]
    cases hsp : splitVarToken rest with
    | none =>
      simp only [hsp]
      rfl
    | some pr =>
      obtain ⟨inner, rest'⟩ := pr
      have hlen := splitVarToken_length hsp
      simp only [hsp]
      cases f (trimSpace (String.mk inner)) with
      | none =>
        simp only
        rw [expandFuel_le (rest.length + 1) (by omega) (le_refl _)]
        rfl
      | some v =>
        simp only
        rw [expandFuel_le (rest.length + 1) (by omega) (le_refl _)]
        rfl
  · rw [if_neg hbr, if_neg hbr]
    rfl

theorem takeWhile_append_stop (name t : List Char) (hnb : ∀ c ∈ name, c ≠ '}') :
    (name ++ '}' :: t).takeWhile (fun c => decide (c ≠ '}')) = name := by
  induction name with
  | nil => simp [List.takeWhile_cons]
  | cons c cs ih =>
    have hc : c ≠ '}' := hnb c (by simp)
    simp only [List.cons_append, List.takeWhile_cons]
    rw [if_pos (by simp [hc])]
    rw [ih (fun x hm => hnb x (by simp [hm]))]

theorem dropWhile_append_stop (name t : List Char) (hnb : ∀ c ∈ name, c ≠ '}') :
    (name ++ '}' :: t).dropWhile (fun c => decide (c ≠ '}')) = '}' :: t := by
  induction name with
  | nil => simp [List.dropWhile_cons]
  | cons c cs ih =>
    have hc : c ≠ '}' := hnb c (by simp)
    simp only [List.cons_append, List.dropWhile_cons]
    rw [if_pos (by simp [hc])]
    exact ih (fun c hm => hnb c (by simp [hm]))

theorem splitVarToken_exact (name t : List Char) (hne : name ≠ []) (hnb : ∀ c ∈ name, c ≠ '}') :
    splitVarToken (name ++ '}' :: '}' :: t) = some (name, t) := by
  unfold splitVarToken
  rw [dropWhile_append_stop name ('}' :: t) hnb]
  rw [takeWhile_append_stop name ('}' :: t) hnb]
  show (if name.isEmpty = true then none else some (name, t)) = some (name, t)
  rw [if_neg (by simpa [List.isEmpty_iff] using hne)]

theorem expandChars_no_open (f : String → Option String) :
    ∀ (cs r : List Char), (∀ c ∈ cs, c ≠ '{') →
      expandChars f (cs ++ r) = cs ++ expandChars f r := by
  intro cs
  induction cs with
  | nil => intro r _; rfl
  | cons c cs ih =>
    intro r h
    have hc : c ≠ '{' := h c (by simp)
    cases hcr : cs ++ r with
    | nil =>
      have hcs : cs = [] := by
        cases cs with
        | nil => rfl
        | cons x xs => simp at hcr
      have hr : r = [] := by
        subst hcs
        simpa using hcr
      subst hcs
      subst hr
      rfl
    | cons d rest =>
      simp only [List.cons_append, hcr, List.append_nil]
      rw [expandChars_cons₂]
      rw [if_neg (by rintro ⟨h₁, _⟩; exact hc h₁)]
      rw [← hcr]
      rw [ih r (fun c hm => h c (by simp [hm]))]

theorem expandChars_token_found (f : String → Option String) (name t : List Char) (v : String)
    (hne : name ≠ []) (hnb : ∀ c ∈ name, c ≠ '}')
    (hv : f (trimSpace (String.mk name)) = some v) :
    expandChars f ('{' :: '{' :: (name ++ '}' :: '}' :: t)) = v.data ++ expandChars f t := by
  rw [expandChars_cons₂]
  rw [if_pos ⟨rfl, rfl⟩]
  rw [splitVarToken_exact name t hne hnb]
  show (match f (trimSpace (String.mk name)) with
    | some v => v.data ++ expandChars f t
    | none => '{' :: '{' :: (name ++ '}' :: '}' :: expandChars f t)) = _
  rw [hv]

theorem expandChars_token_unknown (f : String → Option String) (name t : List Char)
    (hne : name ≠ []) (hnb : ∀ c ∈ name, c ≠ '}')
    (hv : f (trimSpace (String.mk name)) = none) :
    expandChars f ('{' :: '{' :: (name ++ '}' :: '}' :: t)) =
      '{' :: '{' :: (name ++ '}' :: '}' :: expandChars f t) := by
  rw [expandChars_cons₂]
  rw [if_pos ⟨rfl, rfl⟩]
  rw [splitVarToken_exact name t hne hnb]
  show (match f (trimSpace (String.mk name)) with
    | some v => v.data ++ expandChars f t
    | none => '{' :: '{' :: (name ++ '}' :: '}' :: expandChars f t)) = _
  rw [hv]

theorem cutProcessEnv_append (sfx : String) :
    cutProcessEnv (String.mk (processEnvKey.data ++ sfx.data)) = some sfx := by
  unfold cutProcessEnv
  rw [show (String.mk (processEnvKey.data ++ sfx.data)).data = processEnvKey.data ++ sfx.data
    from rfl]
  rw [stripPre_append]

theorem cutProcessEnv_eq_none_iff (key : String) :
    cutProcessEnv key = none ↔ ∀ r : List Char, key.data ≠ processEnvKey.data ++ r := by
  unfold cutProcessEnv
  cases h : stripPre processEnvKey.data key.data with
  | some rest =>
    simp only [reduceCtorEq, false_iff, not_forall]
    exact ⟨rest, fun hne => hne ((stripPre_some_iff _ _ _).mp h)⟩
  | none =>
    simp only [true_iff]
    intro r hr
    have : stripPre processEnvKey.data key.data = some r := (stripPre_some_iff _ _ _).mpr hr
    rw [h] at this
    exact absurd this (by simp)

/-- Claim C9: `expander.get` resolves a name beginning with
`process.env.` from the OS environment by its suffix, otherwise prefers
the local mapping and falls back to the OS environment; `expand`
replaces each `\x7b\x7binner\x7d\x7d` occurrence with `get` of the
trimmed inner name in a single left-to-right pass — the substituted
value is emitted verbatim and never rescanned — and leaves unknown
names literally unchanged. -/
theorem C9_get_and_expand :
    (∀ (osEnv : StrMap) (e : Expander) (sfx : String),
        Expander.get osEnv e (String.mk (processEnvKey.data ++ sfx.data)) = StrMap.find osEnv sfx)
    ∧ (∀ (osEnv : StrMap) (e : Expander) (key v : String),
        (∀ r : List Char, key.data ≠ processEnvKey.data ++ r) →
        StrMap.find e.vars key = some v → Expander.get osEnv e key = some v)
    ∧ (∀ (osEnv : StrMap) (e : Expander) (key : String),
        (∀ r : List Char, key.data ≠ processEnvKey.data ++ r) →
        StrMap.find e.vars key = none → Expander.get osEnv e key = StrMap.find osEnv key)
    ∧ (∀ (f : String → Option String) (cs r : List Char), (∀ c ∈ cs, c ≠ '{') →
        expandChars f (cs ++ r) = cs ++ expandChars f r)
    ∧ (∀ (f : String → Option String) (name t : List Char) (v : String),
        name ≠ [] → (∀ c ∈ name, c ≠ '}') → f (trimSpace (String.mk name)) = some v →
        expandChars f ('{' :: '{' :: (name ++ '}' :: '}' :: t)) = v.data ++ expandChars f t)
    ∧ (∀ (f : String → Option String) (name t : List Char),
        name ≠ [] → (∀ c ∈ name, c ≠ '}') → f (trimSpace (String.mk name)) = none →
        expandChars f ('{' :: '{' :: (name ++ '}' :: '}' :: t)) =
          '{' :: '{' :: (name ++ '}' :: '}' :: expandChars f t))
    ∧ (∀ (osEnv : StrMap) (e : Expander) (s : String),
        e.expand osEnv s = String.mk (expandChars (fun n => e.get osEnv n) s.data)) := by
  refine ⟨?_, ?_, ?_, expandChars_no_open, expandChars_token_found, expandChars_token_unknown,
    fun _ _ _ => rfl⟩
  · intro osEnv e sfx
    unfold Expander.get
    rw [cutProcessEnv_append]
  · intro osEnv e key v hpre hfind
    unfold Expander.get
    rw [(cutProcessEnv_eq_none_iff key).mpr hpre]
    show (match StrMap.find e.vars key with
      | some v => some v
      | none => StrMap.find osEnv key) = some v
    rw [hfind]
  · intro osEnv e key hpre hfind
    unfold Expander.get
    rw [(cutProcessEnv_eq_none_iff key).mpr hpre]
    show (match StrMap.find e.vars key with
      | some v => some v
      | none => StrMap.find osEnv key) = StrMap.find osEnv key
    rw [hfind]

/-- Witness for C9 at concrete inputs: a `process.env.` lookup hits the
OS environment even when the local map binds the full name, and an
expansion whose replacement value itself contains variable syntax is
not rescanned. -/
theorem C9_witness :
    Expander.get [("HOME", "/root")] (newExpander [("HOME", "local")])
        (String.mk (processEnvKey.data ++ "HOME".data)) = some "/root"
    ∧ expandChars (fun n => if n = "a" then some (String.mk ['{', '{', 'b', '}', '}']) else none)
        ('{' :: '{' :: (['a'] ++ '}' :: '}' :: ['y'])) =
      (String.mk ['{', '{', 'b', '}', '}']).data ++
        expandChars (fun n => if n = "a" then some (String.mk ['{', '{', 'b', '}', '}']) else none)
          ['y'] := by
  constructor
  · rw [C9_get_and_expand.1 [("HOME", "/root")] (newExpander [("HOME", "local")]) "HOME"]
    decide
  · exact C9_get_and_expand.2.2.2.2.1
      (fun n => if n = "a" then some (String.mk ['{', '{', 'b', '}', '}']) else none)
      ['a'] ['y'] (String.mk ['{', '{', 'b', '}', '}']) (by decide) (by decide) (by decide)

/-- Claim C1 counterexample: for the concrete case whose URL is
`\x7b\x7bbaseUrl\x7d\x7d/foo` with no variables supplied, `executeParsed`
returns a run-level error (the `Except.error` aborts `RunFolder`); no
`CaseResult` with `passed = false` is produced, contradicting the claim
that the failure is case-level. -/
theorem C1_counterexample :
    executeParsed {} {} { request := { verb := "POST", url := "\x7b\x7bbaseUrl\x7d\x7d/foo" } } {} =
      .error "unresolved variable(s) in url: baseUrl (provide --env/--var)" := rfl

theorem buildHTTPRequest_unresolved (env : BuildEnv) (p : ParsedFile) (exp : Expander)
    (h : unresolvedVarNames (builtURL env p exp) ≠ []) :
    buildHTTPRequest env p exp =
      .error ("unresolved variable(s) in url: " ++
        String.intercalate ", " (unresolvedVarNames (builtURL env p exp)) ++
        " (provide --env/--var)") := by
  unfold buildHTTPRequest
  rw [if_neg (by simpa [List.isEmpty_iff] using h)]

/-- Claim C1, amended: when an executed case's fully-expanded,
path-substituted URL still contains unresolved variables, no HTTP
request is dispatched and `executeParsed` aborts the run with a
run-level error naming every unresolved variable (rather than producing
a case-level `CaseResult`). -/
theorem C1_unresolved_url_aborts_run (env : BuildEnv) (eff : CaseEffects) (parsed : ParsedFile)
    (opts : RunOptions)
    (hfilter : passesTagFilter parsed.meta.tags opts.tags opts.excludeTags = true)
    (hskip : parsed.meta.skip = false)
    (hgate : opts.testsOnly = false ∨ parsed.testsRaw ≠ "" ∨ parsed.assertRules ≠ [])
    (hscript : parsed.meta.settings.script = "")
    (hnames : unresolvedVarNames (builtURL env parsed (caseStartExpander opts parsed)) ≠ []) :
    executeParsed env eff parsed opts =
      .error ("unresolved variable(s) in url: " ++
        String.intercalate ", "
          (unresolvedVarNames (builtURL env parsed (caseStartExpander opts parsed))) ++
        " (provide --env/--var)") := by
  have hcond : (opts.testsOnly && parsed.testsRaw = "" && parsed.assertRules.isEmpty) = false := by
    rcases hgate with h | h | h
    · simp [h]
    · simp [h]
    · simp [List.isEmpty_iff, h]
  unfold executeParsed
  rw [hfilter]
  simp only [Bool.not_true, if_false, Bool.false_eq_true]
  rw [hskip]
  simp only [if_false, Bool.false_eq_true]
  rw [hcond]
  simp only [if_false, Bool.false_eq_true, hscript, if_pos rfl]
  obtain ⟨m, hm⟩ : ∃ m, (if parsed.meta.repeatCount ≤ 0 then 1 else parsed.meta.repeatCount.toNat) = m + 1 := by
    by_cases hr : parsed.meta.repeatCount ≤ 0
    · exact ⟨0, by rw [if_pos hr]⟩
    · refine ⟨parsed.meta.repeatCount.toNat - 1, ?_⟩
      rw [if_neg hr]
      omega
  rw [hm]
  simp only [repeatLoop]
  rw [buildHTTPRequest_unresolved env parsed (caseStartExpander opts parsed) hnames]
  simp

/-- Witness for the amended C1 at a concrete input with two unresolved
variables: both names appear in the error. -/
theorem C1_witness :
    executeParsed {} {}
        { request := { verb := "GET", url := "\x7b\x7ba\x7d\x7d/\x7b\x7bb\x7d\x7d" } } {} =
      .error "unresolved variable(s) in url: a, b (provide --env/--var)" := by
  have h := C1_unresolved_url_aborts_run {} {}
    { request := { verb := "GET", url := "\x7b\x7ba\x7d\x7d/\x7b\x7bb\x7d\x7d" } } {}
    (by decide) (by decide) (Or.inl rfl) rfl (by decide)
  simpa using h

/-- Claim C4: a transport-level dispatch failure makes `executeParsed`
return (with a nil error, i.e. `Except.ok`) a `CaseResult` with
`passed = false` whose `errorText` is exactly `"http request failed: "`
followed by the transport error, hence starts with
`"http request failed:"`; and the sequential scheduler loop continues
with subsequent cases after accumulating such an ok-result (no bail). -/
theorem C4_transport_failure_returns_case_result (env : BuildEnv) (eff : CaseEffects)
    (parsed : ParsedFile) (opts : RunOptions) (req req₁ req₂ : Request) (exp₂ : Expander)
    (msg : String)
    (hfilter : passesTagFilter parsed.meta.tags opts.tags opts.excludeTags = true)
    (hskip : parsed.meta.skip = false)
    (hgate : opts.testsOnly = false ∨ parsed.testsRaw ≠ "" ∨ parsed.assertRules ≠ [])
    (hscript : parsed.meta.settings.script = "")
    (hbuild : buildHTTPRequest env parsed (caseStartExpander opts parsed) = .ok req)
    (hpre : eff.preHook 0 req = .ok req₁)
    (hpreScript : eff.preScript 0 req₁ (caseStartExpander opts parsed) = .ok (req₂, exp₂))
    (hdisp : eff.dispatch 0 req₂ = .transportError msg) :
    executeParsed env eff parsed opts =
      .ok { filePath := parsed.filePath
            name := parsed.meta.name
            requestURL := req₂.url
            seq := parsed.meta.seq
            tags := parsed.meta.tags
            passed := false
            errorText := "http request failed: " ++ msg }
    ∧ ("http request failed:").data <+: ("http request failed: " ++ msg).data
    ∧ (∀ (rest : List (Except String CaseResult)) (acc : SummaryM) (res : CaseResult),
        seqIteration false (Except.ok res :: rest) acc = seqIteration false rest (accumulate acc res)) := by
  refine ⟨?_, ?_, ?_⟩
  · have hcond : (opts.testsOnly && parsed.testsRaw = "" && parsed.assertRules.isEmpty) = false := by
      rcases hgate with h | h | h
      · simp [h]
      · simp [h]
      · simp [List.isEmpty_iff, h]
    unfold executeParsed
    rw [hfilter]
    simp only [Bool.not_true, if_false, Bool.false_eq_true]
    rw [hskip]
    simp only [if_false, Bool.false_eq_true]
    rw [hcond]
    simp only [if_false, Bool.false_eq_true, hscript, if_pos rfl]
    obtain ⟨m, hm⟩ :
        ∃ m, (if parsed.meta.repeatCount ≤ 0 then 1 else parsed.meta.repeatCount.toNat) = m + 1 := by
      by_cases hr : parsed.meta.repeatCount ≤ 0
      · exact ⟨0, by rw [if_pos hr]⟩
      · refine ⟨parsed.meta.repeatCount.toNat - 1, ?_⟩
        rw [if_neg hr]
        omega
    rw [hm]
    simp only [repeatLoop]
    rw [hbuild]
    simp only [hpre, hpreScript, hdisp]
    simp
  · refine ⟨' ' :: msg.data, ?_⟩
    have h₁ : ("http request failed: ").data = ("http request failed:").data ++ [' '] := by decide
    show ("http request failed:").data ++ (' ' :: msg.data) = _
    rw [String.data_append, h₁]
    simp
  · intro rest acc res
    rfl

/-- Witness for C4 at a concrete case and transport error. -/
theorem C4_witness :
    executeParsed {} { dispatch := fun _ _ => .transportError "dial tcp: refused" }
        { filePath := "f.bru"
          meta := { name := "Net fail" }
          request := { verb := "GET", url := "http://example.invalid" } } {} =
      .ok { filePath := "f.bru"
            name := "Net fail"
            requestURL := "http://example.invalid"
            passed := false
            errorText := "http request failed: dial tcp: refused" } := by
  have h := C4_transport_failure_returns_case_result {}
    { dispatch := fun _ _ => .transportError "dial tcp: refused" }
    { filePath := "f.bru"
      meta := { name := "Net fail" }
      request := { verb := "GET", url := "http://example.invalid" } } {}
    { method := "GET", url := "http://example.invalid", headers := [], query := [], body := .noBody }
    { method := "GET", url := "http://example.invalid", headers := [], query := [], body := .noBody }
    { method := "GET", url := "http://example.invalid", headers := [], query := [], body := .noBody }
    (newExpander []) "dial tcp: refused"
    (by decide) (by decide) (Or.inl rfl) rfl (by rfl) rfl rfl rfl
  exact h.1

theorem applyFailures_passed_clean (rs : List (String × Option String)) :
    ∀ r : CaseResult, (r.passed = true → r.failures = [] ∧ r.errorText = "") →
      ((applyFailures rs r).passed = true →
        (applyFailures rs r).failures = [] ∧ (applyFailures rs r).errorText = "") := by
  induction rs with
  | nil => intro r h; exact h
  | cons x rs ih =>
    intro r h
    simp only [applyFailures, List.foldl_cons]
    cases hx : x.2 with
    | none => exact ih r h
    | some msg => exact ih _ (fun hp => absurd hp (by simp))

theorem applyFailures_skipped (rs : List (String × Option String)) :
    ∀ r : CaseResult, (applyFailures rs r).skipped = r.skipped := by
  induction rs with
  | nil => intro r; rfl
  | cons x rs ih =>
    intro r
    simp only [applyFailures, List.foldl_cons]
    cases hx : x.2 with
    | none => exact ih r
    | some msg => exact ih _

theorem executeTests_passed_clean (ev : TestsEval) :
    (executeTests ev).passed = true →
      (executeTests ev).failures = [] ∧ (executeTests ev).errorText = "" := by
  unfold executeTests
  exact applyFailures_passed_clean _ _ (applyFailures_passed_clean _ _ (by intro _; exact ⟨rfl, rfl⟩))

theorem executeTests_not_skipped (ev : TestsEval) : (executeTests ev).skipped = false := by
  unfold executeTests
  rw [applyFailures_skipped, applyFailures_skipped]

theorem repeatLoop_ok_inv (env : BuildEnv) (eff : CaseEffects) (parsed : ParsedFile) :
    ∀ (n i : Nat) (exp : Expander) (r₀ r : CaseResult),
      (r₀.passed = true → r₀.failures = [] ∧ r₀.errorText = "") →
      (r₀.skipped = true → r₀.passed = true) →
      repeatLoop env eff parsed n i exp r₀ = .ok r →
      (r.passed = true → r.failures = [] ∧ r.errorText = "") ∧
      (r.skipped = true → r.passed = true) := by
  intro n
  induction n with
  | zero =>
    intro i exp r₀ r h₁ h₂ hr
    simp only [repeatLoop, Except.ok.injEq] at hr
    subst hr
    exact ⟨h₁, h₂⟩
  | succ n ih =>
    intro i exp r₀ r h₁ h₂ hr
    simp only [repeatLoop] at hr
    split at hr
    · exact absurd hr (by simp)
    · split at hr
      · exact absurd hr (by simp)
      · split at hr
        · exact absurd hr (by simp)
        · split at hr
          · -- transport error branch
            simp only [Except.ok.injEq] at hr
            subst hr
            refine ⟨fun hp => ?_, fun hs => ?_⟩
            · exact absurd hp (by simp)
            · exact absurd hs (by simp)
          · -- response branch
            rename_i testsExc heqd
            split at hr
            · exact absurd hr (by simp)
            · split at hr
              · -- result passed: loop continues
                refine ih (i + 1) _ _ r ?_ ?_ hr
                · cases testsExc with
                  | ok ev =>
                    intro hp
                    exact executeTests_passed_clean ev (by simpa using hp)
                  | error e =>
                    intro hp
                    exact absurd hp (by simp)
                · cases testsExc with
                  | ok ev =>
                    intro hs
                    exact absurd hs (by simp [executeTests_not_skipped])
                  | error e =>
                    intro hs
                    exact absurd hs (by simp)
              · -- result failed: returned as-is
                simp only [Except.ok.injEq] at hr
                subst hr
                constructor
                · cases testsExc with
                  | ok ev =>
                    intro hp
                    exact executeTests_passed_clean ev (by simpa using hp)
                  | error e =>
                    intro hp
                    exact absurd hp (by simp)
                · cases testsExc with
                  | ok ev =>
                    intro hs
                    exact absurd hs (by simp [executeTests_not_skipped])
                  | error e =>
                    intro hs
                    exact absurd hs (by simp)

/-- Claim C5: every `CaseResult` returned (without a run-level error) by
`executeParsed` satisfies: `passed = true` implies the failures list is
empty and `errorText` is empty; and a skipped result has `passed = true`
and `skipped = true`. -/
theorem C5_result_invariants (env : BuildEnv) (eff : CaseEffects) (parsed : ParsedFile)
    (opts : RunOptions) (r : CaseResult)
    (h : executeParsed env eff parsed opts = .ok r) :
    (r.passed = true → r.failures = [] ∧ r.errorText = "") ∧
    (r.skipped = true → r.passed = true ∧ r.skipped = true) := by
  unfold executeParsed at h
  split at h
  · simp only [Except.ok.injEq] at h
    subst h
    exact ⟨fun _ => ⟨rfl, rfl⟩, fun _ => ⟨rfl, rfl⟩⟩
  · split at h
    · simp only [Except.ok.injEq] at h
      subst h
      exact ⟨fun _ => ⟨rfl, rfl⟩, fun _ => ⟨rfl, rfl⟩⟩
    · split at h
      · simp only [Except.ok.injEq] at h
        subst h
        exact ⟨fun _ => ⟨rfl, rfl⟩, fun _ => ⟨rfl, rfl⟩⟩
      · split at h
        · exact absurd h (by simp)
        · have := repeatLoop_ok_inv env eff parsed _ 0 (caseStartExpander opts parsed) {} r
            (fun hp => absurd hp (by simp)) (fun hs => absurd hs (by simp)) h
          exact ⟨this.1, fun hs => ⟨this.2 hs, hs⟩⟩

/-- Witness for C5 at a concrete passing run. -/
theorem C5_witness :
    (({ filePath := "cases/foo.bru", requestURL := "http://x/y", status := 200,
        requestHeaders := some [], responseHeaders := some [],
        passed := true } : CaseResult).passed = true →
      ({ filePath := "cases/foo.bru", requestURL := "http://x/y", status := 200,
         requestHeaders := some [], responseHeaders := some [],
         passed := true } : CaseResult).failures = [] ∧
      ({ filePath := "cases/foo.bru", requestURL := "http://x/y", status := 200,
         requestHeaders := some [], responseHeaders := some [],
         passed := true } : CaseResult).errorText = "") ∧
    (({ filePath := "cases/foo.bru", requestURL := "http://x/y", status := 200,
        requestHeaders := some [], responseHeaders := some [],
        passed := true } : CaseResult).skipped = true →
      ({ filePath := "cases/foo.bru", requestURL := "http://x/y", status := 200,
         requestHeaders := some [], responseHeaders := some [],
         passed := true } : CaseResult).passed = true ∧
      ({ filePath := "cases/foo.bru", requestURL := "http://x/y", status := 200,
         requestHeaders := some [], responseHeaders := some [],
         passed := true } : CaseResult).skipped = true) :=
  C5_result_invariants {} { dispatch := fun _ _ => .response 200 [] (.ok {}) }
    { filePath := "cases/foo.bru", request := { verb := "GET", url := "http://x/y" } } {} _ rfl

/-- Claim C8 counterexample: for an executed case with empty meta name
and file path `cases/foo.bru`, the returned `CaseResult.Name` is the
empty string, not the base name `foo.bru` — `executeParsed` sets
`result.Name = parsed.Meta.Name` with no fallback (runner.go line 431). -/
theorem C8_counterexample :
    executeParsed {} { dispatch := fun _ _ => .response 200 [] (.ok {}) }
        { filePath := "cases/foo.bru", meta := { name := "" },
          request := { verb := "GET", url := "http://x" } } {} =
      .ok { filePath := "cases/foo.bru", requestURL := "http://x", status := 200,
            requestHeaders := some [], responseHeaders := some [], passed := true, name := "" }
    ∧ ({ filePath := "cases/foo.bru", requestURL := "http://x", status := 200,
         requestHeaders := some [], responseHeaders := some [], passed := true,
         name := "" } : CaseResult).name ≠ filepathBase "cases/foo.bru" :=
  ⟨rfl, by decide⟩

theorem repeatLoop_ok_name (env : BuildEnv) (eff : CaseEffects) (parsed : ParsedFile) :
    ∀ (n i : Nat) (exp : Expander) (r₀ r : CaseResult), r₀.name = parsed.meta.name →
      repeatLoop env eff parsed n i exp r₀ = .ok r → r.name = parsed.meta.name := by
  intro n
  induction n with
  | zero =>
    intro i exp r₀ r h₀ hr
    simp only [repeatLoop, Except.ok.injEq] at hr
    subst hr
    exact h₀
  | succ n ih =>
    intro i exp r₀ r h₀ hr
    simp only [repeatLoop] at hr
    split at hr
    · exact absurd hr (by simp)
    · split at hr
      · exact absurd hr (by simp)
      · split at hr
        · exact absurd hr (by simp)
        · split at hr
          · simp only [Except.ok.injEq] at hr
            subst hr
            rfl
          · split at hr
            · exact absurd hr (by simp)
            · split at hr
              · exact ih (i + 1) _ _ r rfl hr
              · simp only [Except.ok.injEq] at hr
                subst hr
                rfl

theorem repeatLoop_ok_name_pos (env : BuildEnv) (eff : CaseEffects) (parsed : ParsedFile)
    (n i : Nat) (exp : Expander) (r₀ r : CaseResult) (hn : 1 ≤ n)
    (hr : repeatLoop env eff parsed n i exp r₀ = .ok r) : r.name = parsed.meta.name := by
  cases n with
  | zero => omega
  | succ n =>
    simp only [repeatLoop] at hr
    split at hr
    · exact absurd hr (by simp)
    · split at hr
      · exact absurd hr (by simp)
      · split at hr
        · exact absurd hr (by simp)
        · split at hr
          · simp only [Except.ok.injEq] at hr
            subst hr
            rfl
          · split at hr
            · exact absurd hr (by simp)
            · split at hr
              · exact repeatLoop_ok_name env eff parsed n (i + 1) _ _ r rfl hr
              · simp only [Except.ok.injEq] at hr
                subst hr
                rfl

/-- Claim C8, amended: the base-name fallback for an empty meta name is
applied only to `HookInfo.Name` by `hookInfoFromParsed`; every
`CaseResult` returned by `executeParsed` (skipped or executed) carries
`name = meta.name` verbatim, even when the meta name is empty. -/
theorem C8_name_fallback_only_in_hookinfo :
    (∀ (parsed : ParsedFile) (req : Option (String × String)),
        (hookInfoFromParsed parsed req).name =
          if parsed.meta.name = "" then filepathBase parsed.filePath else parsed.meta.name)
    ∧ (∀ (env : BuildEnv) (eff : CaseEffects) (parsed : ParsedFile) (opts : RunOptions)
          (r : CaseResult), executeParsed env eff parsed opts = .ok r →
        r.name = parsed.meta.name) := by
  constructor
  · intro parsed req
    rfl
  · intro env eff parsed opts r h
    unfold executeParsed at h
    split at h
    · simp only [Except.ok.injEq] at h
      subst h
      rfl
    · split at h
      · simp only [Except.ok.injEq] at h
        subst h
        rfl
      · split at h
        · simp only [Except.ok.injEq] at h
          subst h
          rfl
        · split at h
          · exact absurd h (by simp)
          · refine repeatLoop_ok_name_pos env eff parsed _ 0 (caseStartExpander opts parsed) {} r ?_ h
            split
            · omega
            · omega

/-- Witness for the amended C8: the hook info of a case with empty meta
name uses the file base name, while the case result keeps the empty
name. -/
theorem C8_witness :
    (hookInfoFromParsed { filePath := "cases/foo.bru", meta := { name := "" } } none).name =
      "foo.bru"
    ∧ ({ filePath := "cases/foo.bru", requestURL := "http://x", status := 200,
         requestHeaders := some [], responseHeaders := some [], passed := true,
         name := "" } : CaseResult).name = "" := by
  constructor
  · rw [C8_name_fallback_only_in_hookinfo.1 { filePath := "cases/foo.bru", meta := { name := "" } }
      none]
    decide
  · exact C8_name_fallback_only_in_hookinfo.2 {} { dispatch := fun _ _ => .response 200 [] (.ok {}) }
      { filePath := "cases/foo.bru", meta := { name := "" },
        request := { verb := "GET", url := "http://x" } } {} _ rfl

theorem StrMap.find_insert (m : StrMap) (k v k' : String) :
    StrMap.find (m.insert k v) k' = if k = k' then some v else StrMap.find m k' := by
  induction m with
  | nil =>
    by_cases h : k = k'
    · simp [StrMap.insert, StrMap.find, h]
    · simp [StrMap.insert, StrMap.find, h]
  | cons kv rest ih =>
    obtain ⟨a, b⟩ := kv
    by_cases hak : a = k
    · subst hak
      simp only [StrMap.insert, if_pos rfl]
      by_cases h : a = k'
      · simp [StrMap.find, h]
      · simp [StrMap.find, h]
    · simp only [StrMap.insert, if_neg hak]
      by_cases h : a = k'
      · subst h
        have hkk : ¬k = a := fun hh => hak hh.symm
        simp [StrMap.find, hkk]
      · simp [StrMap.find, h, ih]

theorem StrMap.find_append (l₁ l₂ : StrMap) (k : String) :
    StrMap.find (l₁ ++ l₂) k =
      match StrMap.find l₁ k with
      | some v => some v
      | none => StrMap.find l₂ k := by
  induction l₁ with
  | nil => rfl
  | cons kv rest ih =>
    obtain ⟨a, b⟩ := kv
    by_cases h : a = k
    · simp [StrMap.find, h]
    · simp [StrMap.find, h, ih]

theorem StrMap.find_eq_none_of_not_mem (m : StrMap) (k : String)
    (h : k ∉ m.map Prod.fst) : StrMap.find m k = none := by
  induction m with
  | nil => rfl
  | cons kv rest ih =>
    obtain ⟨a, b⟩ := kv
    simp only [List.map_cons, List.mem_cons] at h
    push_neg at h
    have ha : a ≠ k := fun hh => h.1 hh.symm
    simp only [StrMap.find, if_neg ha]
    exact ih h.2

theorem StrMap.find_copyFrom (src : StrMap) : ∀ (dst : StrMap) (k : String),
    StrMap.find (StrMap.copyFrom dst src) k =
      match StrMap.find src.reverse k with
      | some v => some v
      | none => StrMap.find dst k := by
  induction src with
  | nil => intro dst k; rfl
  | cons kv rest ih =>
    obtain ⟨a, b⟩ := kv
    intro dst k
    show StrMap.find (StrMap.copyFrom (dst.insert a b) rest) k = _
    rw [ih (dst.insert a b) k]
    rw [show ((a, b) :: rest).reverse = rest.reverse ++ [(a, b)] by simp]
    rw [StrMap.find_append]
    cases StrMap.find rest.reverse k with
    | some v => rfl
    | none =>
      simp only
      rw [StrMap.find_insert]
      by_cases h : a = k
      · simp [StrMap.find, h]
      · simp [StrMap.find, h]

theorem StrMap.find_reverse_of_nodup (m : StrMap) (k : String)
    (h : (m.map Prod.fst).Nodup) : StrMap.find m.reverse k = StrMap.find m k := by
  induction m with
  | nil => rfl
  | cons kv rest ih =>
    obtain ⟨a, b⟩ := kv
    simp only [List.map_cons, List.nodup_cons] at h
    rw [show ((a, b) :: rest).reverse = rest.reverse ++ [(a, b)] by simp]
    rw [StrMap.find_append]
    by_cases hk : a = k
    · subst hk
      have : StrMap.find rest.reverse a = none := by
        apply StrMap.find_eq_none_of_not_mem
        simpa using h.1
      rw [this]
      simp [StrMap.find]
    · rw [ih h.2]
      cases hf : StrMap.find rest k with
      | some v => simp [StrMap.find, hk, hf]
      | none => simp [StrMap.find, hk, hf]

theorem cloneStringMap_find (m : StrMap) (k : String) (h : (m.map Prod.fst).Nodup) :
    StrMap.find (cloneStringMap m) k = StrMap.find m k := by
  unfold cloneStringMap
  rw [StrMap.find_copyFrom]
  rw [StrMap.find_reverse_of_nodup m k h]
  cases StrMap.find m k <;> rfl

/-- Claim C2 counterexample: in sequential mode with empty iteration
vars, case A performs `bru.setVar("k", "v")`; the expander observed by
the following case B does not see `k` — `newExpander` snapshots the
shared map per case and only `varsPost` is written back, so `setVar`
mutations are never visible to later cases even sequentially. -/
theorem C2_counterexample :
    seqCaseExpanders [] [{ setVarCalls := [("k", "v")] }, {}] =
      [⟨[("k", "v")]⟩, ⟨[]⟩]
    ∧ Expander.get [] (⟨[]⟩ : Expander) "k" = none :=
  ⟨rfl, rfl⟩

/-- Claim C2, amended: in sequential mode the expander of the j-th case
is seeded from the iteration map as rewritten by the `varsPost`
write-backs of the previous cases only; the `bru.setVar` calls of an
earlier case never influence a later case's expander (in either mode);
and in parallel mode each case's expander is seeded from a clone of the
iteration map, whose visible content equals the original. -/
theorem C2_setvar_not_shared_varspost_shared :
    (∀ (iterVars : StrMap) (cs : List CaseSpec) (j : Nat), j < cs.length →
        (seqCaseExpanders iterVars cs)[j]? =
          (cs[j]?).map (caseExpander (List.foldl afterCase iterVars (cs.take j))))
    ∧ (∀ (iterVars : StrMap) (a : CaseSpec) (l₁ l₂ : List (String × String)) (cs : List CaseSpec),
        (seqCaseExpanders iterVars ({ a with setVarCalls := l₁ } :: cs)).tail =
          (seqCaseExpanders iterVars ({ a with setVarCalls := l₂ } :: cs)).tail)
    ∧ (∀ (iterVars : StrMap) (cs : List CaseSpec) (j : Nat),
        (parCaseExpanders iterVars cs)[j]? =
          (cs[j]?).map (caseExpander (cloneStringMap iterVars)))
    ∧ (∀ (m : StrMap) (k : String), (m.map Prod.fst).Nodup →
        StrMap.find (cloneStringMap m) k = StrMap.find m k) := by
  refine ⟨?_, ?_, ?_, fun m k h => cloneStringMap_find m k h⟩
  · intro iterVars cs
    induction cs generalizing iterVars with
    | nil => intro j hj; simp at hj
    | cons c rest ih =>
      intro j hj
      cases j with
      | zero => simp [seqCaseExpanders]
      | succ j =>
        simp only [seqCaseExpanders, List.getElem?_cons_succ, List.take_succ_cons,
          List.foldl_cons]
        exact ih (afterCase iterVars c) j (by simpa using hj)
  · intro iterVars a l₁ l₂ cs
    show seqCaseExpanders (afterCase iterVars { a with setVarCalls := l₁ }) cs =
      seqCaseExpanders (afterCase iterVars { a with setVarCalls := l₂ }) cs
    rfl
  · intro iterVars cs j
    simp [parCaseExpanders]

/-- Witness for the amended C2: with one `varsPost` write-back from case
A, case B's expander sees `p` (from varsPost) but not `k` (from
setVar); the parallel clone of a map resolves keys identically. -/
theorem C2_witness :
    (seqCaseExpanders [] [{ setVarCalls := [("k", "v")], varsPost := [("p", "w")] }, {}])[1]? =
      some (caseExpander
        (List.foldl afterCase []
          (List.take 1 [{ setVarCalls := [("k", "v")], varsPost := [("p", "w")] }, {}]))
        {})
    ∧ StrMap.find (cloneStringMap [("a", "1"), ("b", "2")]) "b" =
        StrMap.find [("a", "1"), ("b", "2")] "b" := by
  constructor
  · exact C2_setvar_not_shared_varspost_shared.1 []
      [{ setVarCalls := [("k", "v")], varsPost := [("p", "w")] }, {}] 1 (by decide)
  · exact C2_setvar_not_shared_varspost_shared.2.2.2 [("a", "1"), ("b", "2")] "b" (by decide)

/-- Claim C3 counterexample: with two runnable cases A then B (input
order), a completion order in which B's result arrives first makes the
parallel iteration append B before A into `summary.Cases` — the
receive loop (runner.go lines 156-175) accumulates in channel-arrival
order, not input order. -/
theorem C3_counterexample :
    parIteration false
        [Except.ok { name := "B", passed := true }, Except.ok { name := "A", passed := true }]
        {} =
      .ok ({ cases := [{ name := "B", passed := true }, { name := "A", passed := true }],
             passed := 2 }, false)
    ∧ ([({ name := "B", passed := true } : CaseResult), { name := "A", passed := true }] ≠
        [({ name := "A", passed := true } : CaseResult), { name := "B", passed := true }]) :=
  ⟨rfl, by decide⟩

theorem parReceive_all_ok (bail : Bool) :
    ∀ (rs : List CaseResult) (acc₀ : SummaryM) (bt₀ : Bool),
      parReceive bail (rs.map Except.ok) acc₀ bt₀ none =
        ({ cases := acc₀.cases ++ rs
           total := acc₀.total
           passed := acc₀.passed + rs.countP (fun r => !r.skipped && r.passed)
           failed := acc₀.failed + rs.countP (fun r => !r.skipped && !r.passed)
           skipped := acc₀.skipped + rs.countP (fun r => r.skipped) },
         bt₀ || (bail && rs.any (fun r => !r.passed && !r.skipped)), none) := by
  intro rs
  induction rs with
  | nil =>
    intro acc₀ bt₀
    simp [parReceive]
  | cons r rs ih =>
    intro acc₀ bt₀
    show parReceive bail (Except.ok r :: rs.map Except.ok) acc₀ bt₀ none = _
    rw [show parReceive bail (Except.ok r :: rs.map Except.ok) acc₀ bt₀ none =
        parReceive bail (rs.map Except.ok) (accumulate acc₀ r)
          (bt₀ || (bail && !r.passed && !r.skipped)) none from rfl]
    rw [ih]
    unfold accumulate
    by_cases hs : r.skipped = true
    · cases bt₀ <;> cases bail <;>
        simp [hs, List.countP_cons, List.any_cons, Nat.add_comm, Nat.add_assoc,
          Nat.add_left_comm, Bool.or_assoc]
    · have hs' : r.skipped = false := by simpa using hs
      by_cases hp : r.passed = true
      · cases bt₀ <;> cases bail <;>
          simp [hs', hp, List.countP_cons, List.any_cons, Nat.add_comm, Nat.add_assoc,
            Nat.add_left_comm, Bool.or_assoc]
      · have hp' : r.passed = false := by simpa using hp
        cases bt₀ <;> cases bail <;>
          simp [hs', hp', List.countP_cons, List.any_cons, Nat.add_comm, Nat.add_assoc,
            Nat.add_left_comm, Bool.or_assoc]

/-- Claim C3, amended: in parallel mode `summary.Cases` for an iteration
is the results in completion order (the channel-arrival permutation),
not necessarily input order; what IS deterministic by input order is the
multiset of cases and the passed/failed/skipped counters, which agree
with the input-order counts for every completion order. -/
theorem C3_parallel_accumulates_in_completion_order (bail : Bool)
    (results completionOrder : List CaseResult) (acc : SummaryM) (bt : Bool)
    (hperm : completionOrder.Perm results)
    (h : parIteration bail (completionOrder.map Except.ok) {} = .ok (acc, bt)) :
    acc.cases = completionOrder
    ∧ acc.cases.Perm results
    ∧ acc.passed = results.countP (fun r => !r.skipped && r.passed)
    ∧ acc.failed = results.countP (fun r => !r.skipped && !r.passed)
    ∧ acc.skipped = results.countP (fun r => r.skipped)
    ∧ acc.cases.length = results.length := by
  unfold parIteration at h
  rw [parReceive_all_ok bail completionOrder {} false] at h
  simp only [Except.ok.injEq, Prod.mk.injEq] at h
  obtain ⟨hacc, _⟩ := h
  subst hacc
  refine ⟨by simp, by simpa using hperm, ?_, ?_, ?_, by simpa using hperm.length_eq⟩
  · simpa using hperm.countP_eq _
  · simpa using hperm.countP_eq _
  · simpa using hperm.countP_eq _

/-- Witness for the amended C3 at a concrete swapped completion order. -/
theorem C3_witness :
    ({ cases := [{ name := "B", passed := true }, { name := "A", passed := true }],
       passed := 2 } : SummaryM).cases =
      [{ name := "B", passed := true }, { name := "A", passed := true }]
    ∧ ({ cases := [{ name := "B", passed := true }, { name := "A", passed := true }],
         passed := 2 } : SummaryM).cases.Perm
        [{ name := "A", passed := true }, { name := "B", passed := true }]
    ∧ ({ cases := [{ name := "B", passed := true }, { name := "A", passed := true }],
         passed := 2 } : SummaryM).passed =
        List.countP (fun r => !r.skipped && r.passed)
          [({ name := "A", passed := true } : CaseResult), { name := "B", passed := true }] := by
  have h := C3_parallel_accumulates_in_completion_order false
    [{ name := "A", passed := true }, { name := "B", passed := true }]
    [{ name := "B", passed := true }, { name := "A", passed := true }]
    { cases := [{ name := "B", passed := true }, { name := "A", passed := true }], passed := 2 }
    false (by exact List.Perm.swap _ _ _) rfl
  exact ⟨h.1, h.2.1, h.2.2.1⟩

theorem accumulate_balance (acc : SummaryM) (r : CaseResult)
    (h : acc.passed + acc.failed + acc.skipped = acc.cases.length) :
    (accumulate acc r).passed + (accumulate acc r).failed + (accumulate acc r).skipped =
      (accumulate acc r).cases.length := by
  unfold accumulate
  by_cases hs : r.skipped = true
  · simp [hs]
    omega
  · have hs' : r.skipped = false := by simpa using hs
    by_cases hp : r.passed = true
    · simp [hs', hp]
      omega
    · have hp' : r.passed = false := by simpa using hp
      simp [hs', hp']
      omega

theorem accumulate_total (acc : SummaryM) (r : CaseResult) :
    (accumulate acc r).total = acc.total := by
  unfold accumulate
  by_cases hs : r.skipped = true
  · simp [hs]
  · have hs' : r.skipped = false := by simpa using hs
    by_cases hp : r.passed = true
    · simp [hs', hp]
    · have hp' : r.passed = false := by simpa using hp
      simp [hs', hp']

theorem accumulate_len (acc : SummaryM) (r : CaseResult) :
    (accumulate acc r).cases.length = acc.cases.length + 1 := by
  unfold accumulate
  by_cases hs : r.skipped = true
  · simp [hs]
  · have hs' : r.skipped = false := by simpa using hs
    by_cases hp : r.passed = true
    · simp [hs', hp]
    · have hp' : r.passed = false := by simpa using hp
      simp [hs', hp']

theorem seqIteration_inv (bail : Bool) :
    ∀ (results : List (Except String CaseResult)) (acc acc' : SummaryM) (bailed : Bool),
      seqIteration bail results acc = .ok (acc', bailed) →
      ((acc.passed + acc.failed + acc.skipped = acc.cases.length →
          acc'.passed + acc'.failed + acc'.skipped = acc'.cases.length)
        ∧ acc'.cases.length ≤ acc.cases.length + results.length
        ∧ acc'.total = acc.total) := by
  intro results
  induction results with
  | nil =>
    intro acc acc' bailed h
    simp only [seqIteration, Except.ok.injEq, Prod.mk.injEq] at h
    obtain ⟨h₁, _⟩ := h
    subst h₁
    exact ⟨fun hb => hb, by simp, rfl⟩
  | cons r rest ih =>
    intro acc acc' bailed h
    simp only [seqIteration] at h
    split at h
    · exact absurd h (by simp)
    · rename_i res
      split at h
      · simp only [Except.ok.injEq, Prod.mk.injEq] at h
        obtain ⟨h₁, _⟩ := h
        subst h₁
        refine ⟨fun hb => accumulate_balance acc res hb, ?_, accumulate_total acc res⟩
        rw [accumulate_len]
        simp only [List.length_cons]
        omega
      · have := ih (accumulate acc res) acc' bailed h
        refine ⟨fun hb => this.1 (accumulate_balance acc res hb), ?_, ?_⟩
        · have h₂ := this.2.1
          rw [accumulate_len] at h₂
          simp only [List.length_cons]
          omega
        · rw [this.2.2, accumulate_total]

theorem parReceive_inv (bail : Bool) :
    ∀ (arrivals : List (Except String CaseResult)) (acc : SummaryM) (bt : Bool)
      (ie : Option String),
      ((acc.passed + acc.failed + acc.skipped = acc.cases.length →
          (parReceive bail arrivals acc bt ie).1.passed +
            (parReceive bail arrivals acc bt ie).1.failed +
            (parReceive bail arrivals acc bt ie).1.skipped =
            (parReceive bail arrivals acc bt ie).1.cases.length)
        ∧ (parReceive bail arrivals acc bt ie).1.cases.length ≤
            acc.cases.length + arrivals.length
        ∧ (parReceive bail arrivals acc bt ie).1.total = acc.total) := by
  intro arrivals
  induction arrivals with
  | nil =>
    intro acc bt ie
    exact ⟨fun hb => hb, by simp [parReceive], rfl⟩
  | cons r rest ih =>
    intro acc bt ie
    cases ie with
    | some e =>
      rw [show parReceive bail (r :: rest) acc bt (some e) =
          parReceive bail rest acc bt (some e) from rfl]
      have := ih acc bt (some e)
      refine ⟨this.1, ?_, this.2.2⟩
      have h₂ := this.2.1
      simp only [List.length_cons]
      omega
    | none =>
      cases r with
      | error e =>
        rw [show parReceive bail (Except.error e :: rest) acc bt none =
            parReceive bail rest acc bt (some e) from rfl]
        have := ih acc bt (some e)
        refine ⟨this.1, ?_, this.2.2⟩
        have h₂ := this.2.1
        simp only [List.length_cons]
        omega
      | ok res =>
        rw [show parReceive bail (Except.ok res :: rest) acc bt none =
            parReceive bail rest (accumulate acc res)
              (bt || (bail && !res.passed && !res.skipped)) none from rfl]
        have := ih (accumulate acc res) (bt || (bail && !res.passed && !res.skipped)) none
        refine ⟨fun hb => this.1 (accumulate_balance acc res hb), ?_, ?_⟩
        · have h₂ := this.2.1
          rw [accumulate_len] at h₂
          simp only [List.length_cons]
          omega
        · rw [this.2.2, accumulate_total]

theorem parIteration_inv (bail : Bool) (arrivals : List (Except String CaseResult))
    (acc acc' : SummaryM) (bt : Bool)
    (h : parIteration bail arrivals acc = .ok (acc', bt)) :
    ((acc.passed + acc.failed + acc.skipped = acc.cases.length →
        acc'.passed + acc'.failed + acc'.skipped = acc'.cases.length)
      ∧ acc'.cases.length ≤ acc.cases.length + arrivals.length
      ∧ acc'.total = acc.total) := by
  unfold parIteration at h
  split at h
  · exact absurd h (by simp)
  · rename_i a b heq
    simp only [Except.ok.injEq, Prod.mk.injEq] at h
    obtain ⟨h₁, _⟩ := h
    subst h₁
    have hinv := parReceive_inv bail arrivals acc false none
    rw [heq] at hinv
    exact hinv

theorem runIters_inv (parallel bail : Bool)
    (seqResults arrivals : Nat → List (Except String CaseResult)) (numRunnable : Nat)
    (hlen : ∀ it, (seqResults it).length = numRunnable)
    (harr : ∀ it, (arrivals it).length = numRunnable) :
    ∀ (fuel it : Nat) (acc s : SummaryM),
      acc.passed + acc.failed + acc.skipped = acc.cases.length →
      acc.cases.length + numRunnable * fuel ≤ acc.total →
      runIters parallel bail seqResults arrivals fuel it acc = .ok s →
      (s.passed + s.failed + s.skipped = s.cases.length
        ∧ s.cases.length ≤ s.total ∧ s.total = acc.total) := by
  intro fuel
  induction fuel with
  | zero =>
    intro it acc s hbal hbound h
    simp only [runIters, Except.ok.injEq] at h
    subst h
    exact ⟨hbal, by omega, rfl⟩
  | succ fuel ih =>
    intro it acc s hbal hbound h
    simp only [runIters] at h
    split at h
    · exact absurd h (by simp)
    · rename_i acc' bailed heq
      have hstep :
          ((acc.passed + acc.failed + acc.skipped = acc.cases.length →
              acc'.passed + acc'.failed + acc'.skipped = acc'.cases.length)
            ∧ acc'.cases.length ≤ acc.cases.length + numRunnable
            ∧ acc'.total = acc.total) := by
        by_cases hp : parallel = true
        · rw [hp] at heq
          simp only [if_pos rfl] at heq
          have := parIteration_inv bail (arrivals it) acc acc' bailed heq
          rw [harr it] at this
          exact this
        · have hp' : parallel = false := by simpa using hp
          rw [hp'] at heq
          simp only [Bool.false_eq_true, if_false] at heq
          have := seqIteration_inv bail (seqResults it) acc acc' bailed heq
          rw [hlen it] at this
          exact this
      split at h
      · simp only [Except.ok.injEq] at h
        subst h
        refine ⟨hstep.1 hbal, ?_, hstep.2.2⟩
        have h₁ := hstep.2.1
        rw [hstep.2.2]
        have : numRunnable * (fuel + 1) = numRunnable * fuel + numRunnable := by ring
        omega
      · have := ih (it + 1) acc' s (hstep.1 hbal) ?_ h
        · exact ⟨this.1, this.2.1, by rw [this.2.2, hstep.2.2]⟩
        · rw [hstep.2.2]
          have h₁ := hstep.2.1
          have : numRunnable * (fuel + 1) = numRunnable * fuel + numRunnable := by ring
          omega

/-- Claim C6: every summary returned without a run-level error by
`RunFolder` satisfies `passed + failed + skipped = len(cases)` and
`len(cases) ≤ total = numRunnable × numIters`, in both modes, with or
without bail, for every completion order (arrival lists of the right
length). -/
theorem C6_summary_counts (numRunnable numIters : Nat) (parallel bail : Bool)
    (seqResults arrivals : Nat → List (Except String CaseResult)) (s : SummaryM)
    (hlen : ∀ it, (seqResults it).length = numRunnable)
    (harr : ∀ it, (arrivals it).length = numRunnable)
    (h : runFolderModel numRunnable numIters parallel bail seqResults arrivals = .ok s) :
    s.passed + s.failed + s.skipped = s.cases.length
    ∧ s.cases.length ≤ s.total
    ∧ s.total = numRunnable * numIters := by
  have := runIters_inv parallel bail seqResults arrivals numRunnable hlen harr numIters 0
    { total := numRunnable * numIters } s (by simp) (by simp) h
  exact this

/-- Witness for C6: one runnable case over two iterations, sequential. -/
theorem C6_witness :
    ({ cases := [{ passed := true }, { passed := true }], total := 2,
       passed := 2 } : SummaryM).passed +
        ({ cases := [{ passed := true }, { passed := true }], total := 2,
           passed := 2 } : SummaryM).failed +
        ({ cases := [{ passed := true }, { passed := true }], total := 2,
           passed := 2 } : SummaryM).skipped =
      ({ cases := [{ passed := true }, { passed := true }], total := 2,
         passed := 2 } : SummaryM).cases.length
    ∧ ({ cases := [{ passed := true }, { passed := true }], total := 2,
         passed := 2 } : SummaryM).cases.length ≤
        ({ cases := [{ passed := true }, { passed := true }], total := 2,
           passed := 2 } : SummaryM).total
    ∧ ({ cases := [{ passed := true }, { passed := true }], total := 2,
         passed := 2 } : SummaryM).total = 1 * 2 :=
  C6_summary_counts 1 2 false false (fun _ => [Except.ok { passed := true }])
    (fun _ => [Except.ok { passed := true }]) _ (fun _ => rfl) (fun _ => rfl) rfl

theorem hexDigitU_ne (n : Nat) (h : n < 16) : hexDigitU n ≠ '&' ∧ hexDigitU n ≠ '=' := by
  interval_cases n <;> exact ⟨by decide, by decide⟩

theorem mem_escapeByte (b : Nat) (hb : b < 256) (x : Char) (hx : x ∈ escapeByte b) :
    x ≠ '&' ∧ x ≠ '=' := by
  unfold escapeByte at hx
  simp only [List.mem_cons, List.not_mem_nil, or_false] at hx
  rcases hx with h | h | h
  · subst h
    exact ⟨by decide, by decide⟩
  · subst h
    exact hexDigitU_ne _ (by omega)
  · subst h
    exact hexDigitU_ne _ (by omega)

theorem mem_utf8Fold (bs : List UInt8) (x : Char)
    (hx : x ∈ bs.foldr (fun b acc => escapeByte b.toNat ++ acc) []) :
    x ≠ '&' ∧ x ≠ '=' := by
  induction bs with
  | nil => simp at hx
  | cons b bs ih =>
    simp only [List.foldr_cons, List.mem_append] at hx
    rcases hx with h | h
    · exact mem_escapeByte b.toNat b.val.isLt x h
    · exact ih h

theorem mem_queryEscapeChar (c x : Char) (hx : x ∈ queryEscapeChar c) :
    x ≠ '&' ∧ x ≠ '=' := by
  unfold queryEscapeChar at hx
  split at hx
  · rename_i hc
    simp only [List.mem_singleton] at hx
    subst hx
    constructor <;> intro he <;> rw [he] at hc <;> exact absurd hc (by decide)
  · split at hx
    · simp only [List.mem_singleton] at hx
      subst hx
      exact ⟨by decide, by decide⟩
    · exact mem_utf8Fold _ x hx

theorem mem_queryEscape (s : String) (x : Char) (hx : x ∈ (queryEscape s).data) :
    x ≠ '&' ∧ x ≠ '=' := by
  unfold queryEscape at hx
  rw [show (String.mk (s.data.foldr (fun c acc => queryEscapeChar c ++ acc) [])).data =
      s.data.foldr (fun c acc => queryEscapeChar c ++ acc) [] from rfl] at hx
  generalize s.data = l at hx
  induction l with
  | nil => simp at hx
  | cons c cs ih =>
    simp only [List.foldr_cons, List.mem_append] at hx
    rcases hx with h | h
    · exact mem_queryEscapeChar c x h
    · exact ih h

theorem splitOnChar_ne_nil (sep : Char) (cs : List Char) : splitOnChar sep cs ≠ [] := by
  cases cs with
  | nil => simp [splitOnChar]
  | cons c rest =>
    simp only [splitOnChar]
    cases splitOnChar sep rest with
    | nil => simp
    | cons g gs => by_cases h : c = sep <;> simp [h]

theorem splitOnChar_no_sep (sep : Char) : ∀ (cs : List Char), sep ∉ cs →
    splitOnChar sep cs = [cs] := by
  intro cs
  induction cs with
  | nil => intro _; rfl
  | cons c rest ih =>
    intro h
    simp only [List.mem_cons] at h
    push_neg at h
    have hc : c ≠ sep := fun hh => h.1 hh.symm
    simp only [splitOnChar]
    rw [ih h.2]
    simp [hc]

theorem splitOnChar_append (sep : Char) : ∀ (a b : List Char), sep ∉ a →
    splitOnChar sep (a ++ sep :: b) = a :: splitOnChar sep b := by
  intro a
  induction a with
  | nil =>
    intro b _
    simp only [List.nil_append, splitOnChar]
    cases h : splitOnChar sep b with
    | nil => exact absurd h (splitOnChar_ne_nil sep b)
    | cons g gs => simp
  | cons c a ih =>
    intro b hne
    simp only [List.mem_cons] at hne
    push_neg at hne
    have hc : c ≠ sep := fun hh => hne.1 hh.symm
    show (match splitOnChar sep (a ++ sep :: b) with
      | [] => [[]]
      | g :: gs => if c = sep then [] :: g :: gs else (c :: g) :: gs) =
      (c :: a) :: splitOnChar sep b
    rw [ih b hne.2]
    simp [hc]

theorem takeWhileNe_append (stop : Char) : ∀ (xs t : List Char), (∀ c ∈ xs, c ≠ stop) →
    (xs ++ stop :: t).takeWhile (fun c => decide (c ≠ stop)) = xs := by
  intro xs
  induction xs with
  | nil => intro t _; simp [List.takeWhile_cons]
  | cons c cs ih =>
    intro t h
    have hc : c ≠ stop := h c (by simp)
    simp only [List.cons_append, List.takeWhile_cons]
    rw [if_pos (by simp [hc])]
    rw [ih t (fun x hm => h x (by simp [hm]))]

theorem dropWhileNe_append (stop : Char) : ∀ (xs t : List Char), (∀ c ∈ xs, c ≠ stop) →
    (xs ++ stop :: t).dropWhile (fun c => decide (c ≠ stop)) = stop :: t := by
  intro xs
  induction xs with
  | nil => intro t _; simp [List.dropWhile_cons]
  | cons c cs ih =>
    intro t h
    have hc : c ≠ stop := h c (by simp)
    simp only [List.cons_append, List.dropWhile_cons]
    rw [if_pos (by simp [hc])]
    exact ih t (fun x hm => h x (by simp [hm]))

theorem cutAtChar_exact (qk qv : List Char) (hk : ∀ x ∈ qk, x ≠ '=') :
    cutAtChar '=' (qk ++ '=' :: qv) = some (qk, qv) := by
  unfold cutAtChar
  rw [dropWhileNe_append '=' qk qv hk]
  rw [takeWhileNe_append '=' qk qv hk]

theorem pairStr_data (qk qv : String) :
    (qk ++ "=" ++ qv).data = qk.data ++ '=' :: qv.data := by
  rw [String.data_append, String.data_append]
  simp

theorem decodeFormBody_single (qk qv : String)
    (hk : ∀ x ∈ qk.data, x ≠ '&' ∧ x ≠ '=') (hv : ∀ x ∈ qv.data, x ≠ '&' ∧ x ≠ '=') :
    decodeFormBody (qk ++ "=" ++ qv) = [(qk, qv)] := by
  unfold decodeFormBody
  rw [pairStr_data]
  rw [splitOnChar_no_sep '&' _ (by
    intro hm
    simp only [List.mem_append, List.mem_cons] at hm
    rcases hm with h | h | h
    · exact (hk _ h).1 rfl
    · exact absurd h.symm (by decide)
    · exact (hv _ h).1 rfl)]
  simp only [List.map_cons, List.map_nil]
  rw [cutAtChar_exact qk.data qv.data (fun x hx => (hk x hx).2)]

theorem decodeFormBody_encode (fields : List FormField) (osEnv : StrMap) (exp : Expander)
    (hne : fields ≠ []) :
    decodeFormBody (encodeFormFields fields osEnv exp) =
      fields.map (fun f =>
        (queryEscape (exp.expand osEnv f.key), queryEscape (exp.expand osEnv f.value))) := by
  induction fields with
  | nil => contradiction
  | cons f rest ih =>
    cases rest with
    | nil =>
      show decodeFormBody
        (joinSep "&" [queryEscape (exp.expand osEnv f.key) ++ "=" ++
          queryEscape (exp.expand osEnv f.value)]) = _
      rw [show joinSep "&" [queryEscape (exp.expand osEnv f.key) ++ "=" ++
          queryEscape (exp.expand osEnv f.value)] =
        queryEscape (exp.expand osEnv f.key) ++ "=" ++
          queryEscape (exp.expand osEnv f.value) from rfl]
      rw [decodeFormBody_single _ _ (fun x hx => mem_queryEscape _ x hx)
        (fun x hx => mem_queryEscape _ x hx)]
      rfl
    | cons f₂ rest₂ =>
      have hjoin : encodeFormFields (f :: f₂ :: rest₂) osEnv exp =
          (queryEscape (exp.expand osEnv f.key) ++ "=" ++
            queryEscape (exp.expand osEnv f.value)) ++ "&" ++
          encodeFormFields (f₂ :: rest₂) osEnv exp := rfl
      rw [hjoin]
      unfold decodeFormBody
      rw [String.data_append, String.data_append]
      rw [show ("&" : String).data = ['&'] from rfl]
      rw [show (queryEscape (exp.expand osEnv f.key) ++ "=" ++
          queryEscape (exp.expand osEnv f.value)).data ++ ['&'] ++
          (encodeFormFields (f₂ :: rest₂) osEnv exp).data =
        (queryEscape (exp.expand osEnv f.key) ++ "=" ++
          queryEscape (exp.expand osEnv f.value)).data ++ '&' ::
          (encodeFormFields (f₂ :: rest₂) osEnv exp).data by simp]
      rw [splitOnChar_append '&' _ _ (by
        rw [pairStr_data]
        intro hm
        simp only [List.mem_append, List.mem_cons] at hm
        rcases hm with h | h | h
        · exact (mem_queryEscape _ _ h).1 rfl
        · exact absurd h.symm (by decide)
        · exact (mem_queryEscape _ _ h).1 rfl)]
      simp only [List.map_cons]
      have htail := ih (by simp)
      unfold decodeFormBody at htail
      rw [htail]
      rw [pairStr_data]
      rw [cutAtChar_exact _ _ (fun x hx => (mem_queryEscape _ x hx).2)]
      rfl

theorem multipartParts_names (env : BuildEnv) (exp : Expander) :
    ∀ (fields : List FormField) (parts : List WirePart),
      multipartParts env exp fields = .ok parts →
      parts.map (fun p => p.name) = fields.map (fun f => f.key) := by
  intro fields
  induction fields with
  | nil =>
    intro parts h
    simp only [multipartParts, Except.ok.injEq] at h
    subst h
    rfl
  | cons f rest ih =>
    intro parts h
    simp only [multipartParts] at h
    split at h
    · split at h
      · exact absurd h (by simp)
      · split at h
        · exact absurd h (by simp)
        · rename_i parts' hrec
          simp only [Except.ok.injEq] at h
          subst h
          simp only [List.map_cons]
          rw [ih parts' hrec]
    · split at h
      · exact absurd h (by simp)
      · rename_i parts' hrec
        split at h
        · simp only [Except.ok.injEq] at h
          subst h
          simp only [List.map_cons]
          rw [ih parts' hrec]
        · simp only [Except.ok.injEq] at h
          subst h
          simp only [List.map_cons]
          rw [ih parts' hrec]

/-- Claim C7: for form-urlencoded bodies the wire body decodes (split on
`&`, cut at the first `=`) to exactly the escaped expanded fields in the
order they appear in `body.raw` (as parsed by `orderedFormFields`), and
for multipart bodies the wire parts carry the field names in the same
raw order. -/
theorem C7_wire_field_order :
    (∀ (raw : String) (osEnv : StrMap) (exp : Expander), orderedFormFields raw ≠ [] →
        decodeFormBody (encodeFormFields (orderedFormFields raw) osEnv exp) =
          (orderedFormFields raw).map (fun f =>
            (queryEscape (exp.expand osEnv f.key), queryEscape (exp.expand osEnv f.value))))
    ∧ (∀ (env : BuildEnv) (exp : Expander) (raw : String) (parts : List WirePart),
        multipartParts env exp (orderedFormFields raw) = .ok parts →
        parts.map (fun p => p.name) = (orderedFormFields raw).map (fun f => f.key)) :=
  ⟨fun raw osEnv exp h => decodeFormBody_encode (orderedFormFields raw) osEnv exp h,
   fun env exp raw parts h => multipartParts_names env exp (orderedFormFields raw) parts h⟩

/-- Witness for C7: a two-field form body keeps `b` before `a` on the
wire, and a two-part multipart body (one file part) keeps part order. -/
theorem C7_witness :
    decodeFormBody (encodeFormFields (orderedFormFields "b: 2\na: 1") [] (newExpander [])) =
      (orderedFormFields "b: 2\na: 1").map (fun f =>
        (queryEscape ((newExpander []).expand [] f.key),
         queryEscape ((newExpander []).expand [] f.value)))
    ∧ ([{ name := "b", filename := some "f", contentType := some "t", content := "X" },
        { name := "a", content := "1" }] : List WirePart).map (fun p => p.name) =
      (orderedFormFields "b: @f;type=t\na: 1").map (fun f => f.key) := by
  constructor
  · exact C7_wire_field_order.1 "b: 2\na: 1" [] (newExpander []) (by decide)
  · exact C7_wire_field_order.2 { readFile := fun _ => .ok "X" } (newExpander [])
      "b: @f;type=t\na: 1" _ rfl

theorem filterHeaderMapRef_frame (st : HeaderStore) (r : Option Nat) (skipSet : List String) :
    (∀ q, q < st.next → ((filterHeaderMapRef st r skipSet).1).mem q = st.mem q)
    ∧ st.next ≤ (filterHeaderMapRef st r skipSet).1.next
    ∧ (∀ r', (filterHeaderMapRef st r skipSet).2 = some r' →
        st.next ≤ r' ∧ r' < (filterHeaderMapRef st r skipSet).1.next) := by
  cases r with
  | none => exact ⟨fun q _ => rfl, le_refl _, fun r' h => absurd h (by simp [filterHeaderMapRef])⟩
  | some r =>
    refine ⟨fun q hq => ?_, ?_, fun r' h => ?_⟩
    · show (if q = st.next then _ else st.mem q) = st.mem q
      rw [if_neg (by omega)]
    · show st.next ≤ st.next + 1
      omega
    · have : r' = st.next := by
        simpa [filterHeaderMapRef, HeaderStore.alloc] using h.symm
      subst this
      exact ⟨le_refl _, by show st.next < st.next + 1; omega⟩

theorem maskSensitiveHeadersRef_frame (st : HeaderStore) (r : Option Nat) :
    (∀ q, (∀ rr, r = some rr → q ≠ rr) → (maskSensitiveHeadersRef st r).mem q = st.mem q)
    ∧ (maskSensitiveHeadersRef st r).next = st.next := by
  cases r with
  | none => exact ⟨fun q _ => rfl, rfl⟩
  | some rr =>
    refine ⟨fun q hq => ?_, rfl⟩
    show (if q = rr then _ else st.mem q) = st.mem q
    rw [if_neg (hq rr rfl)]

theorem filterCasesRef_frame (skipAll : Bool) (skipSet : List String) :
    ∀ (cs : List CaseHeaderRefs) (st : HeaderStore),
      (∀ q, q < st.next → ((filterCasesRef skipAll skipSet st cs).1).mem q = st.mem q)
      ∧ st.next ≤ (filterCasesRef skipAll skipSet st cs).1.next
      ∧ (∀ c ∈ (filterCasesRef skipAll skipSet st cs).2,
          (∀ rr, c.reqHeaders = some rr → st.next ≤ rr) ∧
          (∀ rr, c.respHeaders = some rr → st.next ≤ rr)) := by
  intro cs
  induction cs with
  | nil =>
    intro st
    exact ⟨fun q _ => rfl, le_refl _, fun c hc => absurd hc (by simp [filterCasesRef])⟩
  | cons c rest ih =>
    intro st
    by_cases hsa : skipAll = true
    · subst hsa
      have hstep := ih st
      have hred : filterCasesRef true skipSet st (c :: rest) =
          ((filterCasesRef true skipSet st rest).1,
            { reqHeaders := none, respHeaders := none } ::
              (filterCasesRef true skipSet st rest).2) := by
        simp [filterCasesRef]
      refine ⟨fun q hq => ?_, ?_, fun c' hc' => ?_⟩
      · rw [hred]
        exact hstep.1 q hq
      · rw [hred]
        exact hstep.2.1
      · rw [hred] at hc'
        simp only [List.mem_cons] at hc'
        rcases hc' with h | h
        · subst h
          exact ⟨fun rr hrr => absurd hrr (by simp), fun rr hrr => absurd hrr (by simp)⟩
        · exact hstep.2.2 c' h
    · have hsa' : skipAll = false := by simpa using hsa
      subst hsa'
      obtain ⟨st₁, r₁, hf₁⟩ : ∃ s r, filterHeaderMapRef st c.reqHeaders skipSet = (s, r) :=
        ⟨_, _, rfl⟩
      obtain ⟨st₂, r₂, hf₂⟩ : ∃ s r, filterHeaderMapRef st₁ c.respHeaders skipSet = (s, r) :=
        ⟨_, _, rfl⟩
      have hred : filterCasesRef false skipSet st (c :: rest) =
          ((filterCasesRef false skipSet
              (maskSensitiveHeadersRef (maskSensitiveHeadersRef st₂ r₁) r₂) rest).1,
            { reqHeaders := r₁, respHeaders := r₂ } ::
              (filterCasesRef false skipSet
                (maskSensitiveHeadersRef (maskSensitiveHeadersRef st₂ r₁) r₂) rest).2) := by
        simp only [filterCasesRef, Bool.false_eq_true, if_false]
        rw [hf₁, hf₂]
      have h₁ := filterHeaderMapRef_frame st c.reqHeaders skipSet
      rw [hf₁] at h₁
      have h₂ := filterHeaderMapRef_frame st₁ c.respHeaders skipSet
      rw [hf₂] at h₂
      dsimp only at h₁ h₂
      have hm₁ := maskSensitiveHeadersRef_frame st₂ r₁
      have hm₂ := maskSensitiveHeadersRef_frame (maskSensitiveHeadersRef st₂ r₁) r₂
      have hnext₄ : (maskSensitiveHeadersRef (maskSensitiveHeadersRef st₂ r₁) r₂).next =
          st₂.next := by rw [hm₂.2, hm₁.2]
      have hrec := ih (maskSensitiveHeadersRef (maskSensitiveHeadersRef st₂ r₁) r₂)
      refine ⟨fun q hq => ?_, ?_, fun c' hc' => ?_⟩
      · rw [hred]
        rw [hrec.1 q (by rw [hnext₄]; omega)]
        rw [hm₂.1 q (fun rr hrr => by
          have := (h₂.2.2 rr hrr).1
          have := h₁.2.1
          omega)]
        rw [hm₁.1 q (fun rr hrr => by
          have := (h₁.2.2 rr hrr).1
          omega)]
        rw [h₂.1 q (by have := h₁.2.1; omega)]
        exact h₁.1 q hq
      · rw [hred]
        have := hrec.2.1
        rw [hnext₄] at this
        have := h₁.2.1
        have := h₂.2.1
        simp only
        omega
      · rw [hred] at hc'
        simp only [List.mem_cons] at hc'
        rcases hc' with h | h
        · subst h
          refine ⟨fun rr hrr => ?_, fun rr hrr => ?_⟩
          · exact (h₁.2.2 rr hrr).1
          · have := (h₂.2.2 rr hrr).1
            have := h₁.2.1
            omega
        · have := hrec.2.2 c' h
          rw [hnext₄] at this
          have hle : st.next ≤ st₂.next := le_trans h₁.2.1 h₂.2.1
          exact ⟨fun rr hrr => le_trans hle ((this.1) rr hrr),
                 fun rr hrr => le_trans hle ((this.2) rr hrr)⟩

/-- Claim C10: `filterReportHeaders` is pure with respect to its input:
every header map reachable from the input summary (any heap cell below
the allocation counter) is byte-for-byte unchanged by the call, and the
returned cases reference only freshly built maps (or none); removal and
masking happen only on the new maps. -/
theorem C10_filter_report_headers_pure (st : HeaderStore) (cs : List CaseHeaderRefs)
    (skipAll : Bool) (skipList : List String) (q : Nat) (hq : q < st.next) :
    ((filterReportHeadersRef st cs skipAll skipList).1).mem q = st.mem q
    ∧ (∀ c ∈ (filterReportHeadersRef st cs skipAll skipList).2,
        (∀ rr, c.reqHeaders = some rr → st.next ≤ rr) ∧
        (∀ rr, c.respHeaders = some rr → st.next ≤ rr)) := by
  have := filterCasesRef_frame skipAll (skipList.map (fun h => lowerStr (trimSpace h))) cs st
  exact ⟨this.1 q hq, this.2.2⟩

/-- Witness for C10: a store with one live map containing an
authorization header; after filtering, cell 0 still holds the original
map. -/
theorem C10_witness :
    ((filterReportHeadersRef
        { mem := fun r => if r = 0 then [("authorization", "secret")] else [], next := 1 }
        [{ reqHeaders := some 0 }] false []).1).mem 0 =
      ({ mem := fun r => if r = 0 then [("authorization", "secret")] else [], next := 1 } :
        HeaderStore).mem 0 :=
  (C10_filter_report_headers_pure
    { mem := fun r => if r = 0 then [("authorization", "secret")] else [], next := 1 }
    [{ reqHeaders := some 0 }] false [] 0 (by decide)).1


end Gruno
